import Mathlib

/-!
Verification development for the matryoshka wallpaper prompt generator.

The repository has two algorithmic components:
* the prompt composer `build_prompt` and the backend dispatcher `generate_image`
  (file `matryoshka_app_v6.py`), and
* the fallback raster renderer `make_image` with its helpers `_draw_background`
  and `_wrap_text` (file `imagegen.py`), the latter delegating to CPython
  `textwrap.wrap` with its default configuration.

This file shallowly embeds those functions.  Python strings are modelled as
`List Char` (ASCII subset; the repository texts are ASCII apart from the
Streamlit UI strings, which are not part of the verified core).  Stateful
pieces (the process-global pseudo-random source, the filesystem, the optional
`imagegen` module and the font loader) are modelled by explicit state passing
through environment records.
-/

namespace Matryoshka

/-! ### Python string primitives -/

/-- Python strings, modelled as lists of characters. -/
abbrev Str := List Char

/-- The six characters of CPython `string.whitespace`, which is also the
whitespace set used by `str.split()`, `str.strip()` and `textwrap` for ASCII
text. -/
def isPySpace (c : Char) : Bool :=
  c = ' ' || c = '\t' || c = '\n' || c = '\x0b' || c = '\x0c' || c = '\r'

/-- Python `str.strip()` (ASCII whitespace). -/
def pyStrip (s : Str) : Str :=
  ((s.dropWhile isPySpace).reverse.dropWhile isPySpace).reverse

/-- Total length of a list of strings. -/
def sumLen (l : List Str) : Nat := (l.map List.length).sum

/-- Python `str.split(sep)` for a one-character separator: keeps empty parts,
`"".split(sep) = [""]`. -/
def splitOnChar (sep : Char) : Str → List Str
  | [] => [[]]
  | c :: cs =>
    match splitOnChar sep cs with
    | [] => [[]]
    | h :: t => if c = sep then [] :: h :: t else (c :: h) :: t

/-- Python `str.lower()` restricted to ASCII (`Char.toLower` lowers exactly
the ASCII uppercase letters). -/
def pyLower (s : String) : String := ⟨s.data.map Char.toLower⟩

/-- `str.strip()` on the `String` wrapper type. -/
def pyStripS (s : String) : String := ⟨pyStrip s.data⟩

/-- `held_objects.split(",")` on the `String` wrapper type. -/
def pySplitComma (s : String) : List String :=
  (splitOnChar ',' s.data).map (fun part => ⟨part⟩)

/-! ### Prompt composer (`matryoshka_app_v6.py`) -/

/-- The `STYLE_RECIPE` constant of `matryoshka_app_v6.py`, after the
`textwrap.dedent` applied at module load (the four-space margin of the
triple-quoted literal is removed from every line). -/
def STYLE_RECIPE : String :=
  "\nStrict style recipe:\n- cosy vintage children\x27s-book wallpaper, handmade paper texture with fine visible grain\n- flat colour fills, no hard outlines, no gradients, almost no shading\n- rounded matryoshka silhouettes with softly curved bases and flat circular faces\n- tiny dot or curved-line eyes, small coloured mouth, rosy cheeks, no nose\n- limited pastel/earthy palette, low contrast, matte finish\n- simple scattered motifs (trees, mushrooms, leaves, books, mugs, snowflakes)\n- repeating pattern layout with generous spacing, calm and uncluttered\n"

/-- Lines 50-53 of `build_prompt`: the subjects clause.  The Python guard is
`if secondary_subject and secondary_subject.lower() not in {"none", ""}`:
string truthiness (non-empty) plus a case-insensitive exclusion of "none". -/
def subjects_clause (primary_subject secondary_subject : String) : String :=
  if secondary_subject ≠ "" ∧ pyLower secondary_subject ≠ "none" ∧
      pyLower secondary_subject ≠ "" then
    primary_subject ++ " and " ++ secondary_subject ++ " figures"
  else
    primary_subject ++ " figures"

/-- Line 67 of `build_prompt`:
`[obj.strip() for obj in held_objects.split(",") if obj.strip()]`. -/
def cleaned_objects (held_objects : String) : List String :=
  ((pySplitComma held_objects).filter (fun o => pyStripS o ≠ "")).map pyStripS

/-- Lines 69-72 of `build_prompt`: the list join used for the held objects:
the single element for a one-element list, otherwise
`", ".join(cleaned_objects[:-1]) + " and " + cleaned_objects[-1]`. -/
def objects_list (objs : List String) : String :=
  if objs.length = 1 then objs.headD ""
  else String.intercalate ", " objs.dropLast ++ " and " ++ objs.getLastD ""

/-- Lines 66-73 of `build_prompt`: `objects_text` is empty when the cleaned
list is empty, otherwise the full held-objects sentence. -/
def objects_text (held_objects : String) : String :=
  let cleaned := cleaned_objects held_objects
  if cleaned.isEmpty then ""
  else " Each figure holds one of the following props: " ++
    objects_list cleaned ++ "."

/-- `build_prompt` of `matryoshka_app_v6.py` (the whole function body,
with the clause helpers factored out above exactly as they appear in the
source lines they cite). -/
def build_prompt (primary_subject secondary_subject scene_description
    background_color background_elements palette head_body_ratio : String)
    (apply_flat_faces : Bool)
    (mouth_color eye_style held_objects pattern_density texture_strength :
      String) : String :=
  let subjects := subjects_clause primary_subject secondary_subject
  let face_text :=
    "They have round plump faces with a head-to-body ratio of " ++
    head_body_ratio ++ ", no noses, tiny " ++ eye_style ++
    " eyes and small " ++ mouth_color ++ " mouths with soft blush cheeks."
  let flat_text :=
    if apply_flat_faces then
      " Faces are perfectly flat circles and bodies have smoothly curved bases for a natural transition."
    else ""
  "A vertical repeating wallpaper illustration that matches the reference matryoshka images.\n\n"
    ++ STYLE_RECIPE ++ "\n\n" ++
    "Scene: repeating, rounded " ++ subjects ++ " " ++ scene_description ++
    ". " ++ face_text ++ flat_text ++ objects_text held_objects ++ "\n\n" ++
    "Background: soft " ++ background_color ++ " with scattered, simple " ++
    background_elements ++ "; pattern density: " ++ pattern_density ++
    ".\n\n" ++
    "Palette: " ++ palette ++ "; texture intensity: " ++ texture_strength ++
    "; finish is grainy, soft, and matte."

/-! ### Backend dispatcher (`generate_image` of `matryoshka_app_v6.py`)

The runtime module discovery (`importlib.util.find_spec` / `import_module` /
`hasattr`) is modelled by an explicit optional module record; an exception
raised by the backend is modelled by `Except`. -/

/-- The optional `imagegen` module as seen by `generate_image`: whether it
exposes `make_image`, and the behaviour of that entry point (`Except.error`
models a raised exception, carrying `str(error)`). -/
structure ImagegenModule where
  has_make_image : Bool
  make_image_fn : String → Except String String

/-- `generate_image` of `matryoshka_app_v6.py`.  `none` for the module models
`find_spec("imagegen") is None`.  Returns the `(image_path, error)` pair. -/
def generate_image (imagegen : Option ImagegenModule) (prompt : String) :
    Option String × Option String :=
  match imagegen with
  | none =>
    (none, some "Image generation not configured: install or provide an `imagegen` module with `make_image()`.")
  | some m =>
    if m.has_make_image = false then
      (none, some "`imagegen` module found but missing `make_image` function.")
    else
      match m.make_image_fn prompt with
      | Except.error err => (none, some ("Image generation failed: " ++ err))
      | Except.ok path => (some path, none)

/-! ### CPython `textwrap` model

`imagegen._wrap_text` calls `textwrap.wrap(block.strip(), width=60)` with the
default `TextWrapper` configuration: `expand_tabs=True`,
`replace_whitespace=True`, `drop_whitespace=True`, `break_long_words=True`,
`break_on_hyphens=True`, empty indents, `max_lines=None`.  The model below
follows CPython `Lib/textwrap.py`: `_munge_whitespace`, the `wordsep_re`
chunking, and `_wrap_chunks` with `_handle_long_word`. -/

/-- `\w` of `wordsep_re` (ASCII). -/
def wordClass (c : Char) : Bool := c.isAlphanum || c = '_'

/-- The `[^\d\W]` letter class of `wordsep_re` (ASCII): word characters that
are not digits. -/
def letterClass (c : Char) : Bool := c.isAlpha || c = '_'

/-- The word-punctuation class of `wordsep_re`. -/
def wpClass (c : Char) : Bool :=
  wordClass c || c = '!' || c = '"' || c = '\x27' || c = '&' || c = '.' ||
    c = ',' || c = '?'

/-- The pattern `letter -? letter`, used both as the lookahead after a
breaking hyphen and (read on the reversed preceding context) as the
lookbehind before it. -/
def ltHyphLt : Str → Bool
  | a :: rest =>
    letterClass a &&
      (match rest with
       | b :: rest2 =>
         letterClass b ||
           (b = '-' && (match rest2 with
             | c :: _ => letterClass c
             | [] => false))
       | [] => false)
  | [] => false

/-- The lookahead `-{2,}\w` of `wordsep_re`: at least two hyphens whose full
run is followed by a word character (backtracking inside `-{2,}` cannot stop
early because the following character would then be a hyphen, not `\w`). -/
def emDashCore : Str → Bool
  | a :: b :: rest =>
    a = '-' && b = '-' &&
      (match rest.dropWhile (fun c => c = '-') with
       | d :: _ => wordClass d
       | [] => false)
  | _ => false

/-- Head of the reversed preceding context is a word-punctuation character. -/
def headWp : Str → Bool
  | c :: _ => wpClass c
  | [] => false

/-- The lazy `\S+?` word scan of `wordsep_re` with its three continuation
alternatives, tried in the order of the regex at each boundary: break after a
hyphen (lookbehind two letters or letter-hyphen-letter, lookahead
`letter -? letter`), end of word at whitespace or end of input, or a cut
before an em-dash run.  `prev` is the reversed context preceding the chunk
(lookbehinds cross chunk boundaries), `acc` the reversed consumed part. -/
def scanWordGo (prev : Str) : Str → Str → Str × Str
  | acc, [] => (acc.reverse, [])
  | acc, d :: t =>
    if isPySpace d then (acc.reverse, d :: t)
    else if d = '-' && ltHyphLt (acc ++ prev) && ltHyphLt t then
      (('-' :: acc).reverse, t)
    else if headWp (acc ++ prev) && emDashCore (d :: t) then
      (acc.reverse, d :: t)
    else scanWordGo prev (d :: acc) t

/-- One token of `wordsep_re` starting at `s` (with reversed left context
`prev`): a maximal whitespace run, an em-dash run between words, or a word
found by `scanWordGo`.  Returns the token and the remaining input. -/
def scanStep (prev : Str) (s : Str) : Option (Str × Str) :=
  match s with
  | [] => none
  | c :: cs =>
    if isPySpace c then
      some (c :: cs.takeWhile isPySpace, cs.dropWhile isPySpace)
    else if headWp prev && emDashCore (c :: cs) then
      some (c :: cs.takeWhile (fun d => d = '-'), cs.dropWhile (fun d => d = '-'))
    else
      some (scanWordGo prev [c] cs)

/-- `wordsep_re.split` with empty pieces removed (`TextWrapper._split`):
iterate `scanStep`.  Fuel-driven so that the definition computes by kernel
reduction; every step consumes at least one character, so `length + 1` fuel
suffices. -/
def scanChunksF : Nat → Str → Str → List Str
  | 0, _, _ => []
  | fuel + 1, prev, s =>
    match scanStep prev s with
    | none => []
    | some p => p.1 :: scanChunksF fuel (p.1.reverse ++ prev) p.2

/-- `TextWrapper._split` on a munged text. -/
def scanChunks (s : Str) : List Str := scanChunksF (s.length + 1) [] s

/-- CPython `str.expandtabs(tabsize)`: a tab advances the column to the next
multiple of `tabsize`; newline and carriage return reset the column. -/
def expandTabsGo (tabsize : Nat) : Nat → Str → Str
  | _, [] => []
  | col, c :: cs =>
    if c = '\t' then
      let n := tabsize - col % tabsize
      List.replicate n ' ' ++ expandTabsGo tabsize (col + n) cs
    else if c = '\n' || c = '\r' then c :: expandTabsGo tabsize 0 cs
    else c :: expandTabsGo tabsize (col + 1) cs

/-- `TextWrapper._munge_whitespace`: expand tabs, then translate each of
the characters in `\t\n\x0b\x0c\r` to a space.  Since a space maps to
itself, the translation is `if isPySpace c then space else c`. -/
def munge (s : Str) : Str :=
  (expandTabsGo 8 0 s).map (fun c => if isPySpace c then ' ' else c)

/-- `chunk.strip() == ''` as used by `_wrap_chunks` for `drop_whitespace`. -/
def isWsChunk (c : Str) : Bool := (pyStrip c).isEmpty

/-- The inner greedy loop of `_wrap_chunks`: take chunks while they still fit
into the current line.  Returns the taken prefix and the remainder. -/
def fillLine (width : Nat) : Nat → List Str → List Str × List Str
  | _, [] => ([], [])
  | curLen, c :: cs =>
    if curLen + c.length ≤ width then
      let r := fillLine width (curLen + c.length) cs
      (c :: r.1, r.2)
    else ([], c :: cs)

/-- Python `chunk.rfind('-', 0, stop)` as an `Option` (index of the last
hyphen among the first `stop` characters). -/
def rfindHyphen (chunk : Str) (stop : Nat) : Option Nat :=
  ((chunk.take stop).reverse.findIdx? (fun c => c = '-')).map
    (fun j => (chunk.take stop).length - 1 - j)

/-- The slice end chosen by `_handle_long_word` under `break_long_words` and
`break_on_hyphens`: `space_left`, unless the chunk overflows and has a usable
hyphen before `space_left` preceded by at least one non-hyphen character, in
which case the cut is just after that hyphen. -/
def longWordEnd (chunk : Str) (spaceLeft : Nat) : Nat :=
  if spaceLeft < chunk.length then
    match rfindHyphen chunk spaceLeft with
    | some h =>
      if 0 < h ∧ (chunk.take h).any (fun c => c != '-') then h + 1
      else spaceLeft
    | none => spaceLeft
  else spaceLeft

/-- One outer iteration of `_wrap_chunks` after the leading-whitespace drop:
fill the line greedily, then apply `_handle_long_word` when the next chunk is
longer than the full width.  Returns the chunk list of the current line and
the remaining chunks. -/
def lineAssembly (width : Nat) (chunks2 : List Str) : List Str × List Str :=
  match fillLine width 0 chunks2 with
  | (taken, []) => (taken, [])
  | (taken, d :: ds) =>
    if width < d.length then
      (taken ++
        [d.take (longWordEnd d
          (if width < 1 then 1 else width - sumLen taken))],
        d.drop (longWordEnd d
          (if width < 1 then 1 else width - sumLen taken)) :: ds)
    else (taken, d :: ds)

/-- The `drop_whitespace` trailing step of `_wrap_chunks`: delete the last
element of the current line when it strips to nothing. -/
def dropTrailingWs (l : List Str) : List Str :=
  match l.getLast? with
  | some last => if isWsChunk last then l.dropLast else l
  | none => l

/-- `TextWrapper._wrap_chunks` with the default configuration.  One fuel unit
per outer iteration; each iteration consumes at least one chunk or one
character, so `sumLen + length + 1` fuel suffices.  `first` is true while no
line has been emitted yet (Python tests `lines` being empty before dropping a
leading whitespace chunk). -/
def wrapChunksGo (width : Nat) : Nat → Bool → List Str → List Str
  | 0, _, _ => []
  | _ + 1, _, [] => []
  | fuel + 1, first, c :: cs =>
    let chunks2 := if !first && isWsChunk c then cs else c :: cs
    let la := lineAssembly width chunks2
    let curLine := dropTrailingWs la.1
    if curLine.isEmpty then wrapChunksGo width fuel first la.2
    else curLine.flatten :: wrapChunksGo width fuel false la.2

/-- `textwrap.wrap(text, width)` with the default configuration (CPython
raises `ValueError` for `width <= 0`; the only call site uses `width = 60`). -/
def wrapPy (width : Nat) (text : Str) : List Str :=
  let chunks := scanChunks (munge text)
  wrapChunksGo width (sumLen chunks + chunks.length + 1) true chunks

/-- One newline-separated block of `imagegen._wrap_text`:
`wrap(block.strip(), width=chars_per_line) or [""]`. -/
def wrap_block (chars_per_line : Nat) (block : Str) : List Str :=
  let w := wrapPy chars_per_line (pyStrip block)
  if w.isEmpty then [[]] else w

/-- `imagegen._wrap_text`: split on literal newlines, wrap each block,
replace an empty wrap result by one empty line. -/
def wrap_text (text : Str) (chars_per_line : Nat) : List Str :=
  (splitOnChar '\n' text).flatMap (wrap_block chars_per_line)

/-! ### Fallback renderer (`make_image` of `imagegen.py`)

The PIL drawing surface, the filesystem and the font loader are modelled by
an environment record; the process-global `random` state is threaded
explicitly.  The model records the observable drawing decisions (tiles, dots,
fonts, wrapped lines, output path).  The remaining pixel work (title
centring via `draw.textsize`, the per-line vertical advance via
`body_font.getsize`, and the radius-0.25 Gaussian blur) is a deterministic
function of these fields and the font metrics and consumes no randomness. -/

/-- The three-colour background palette of `_draw_background`. -/
def background_colors : List String := ["#f7f0e8", "#f0e8dd", "#e9e0d5"]

/-- The five-colour accent palette of `_draw_background`. -/
def accent_colors : List String :=
  ["#d5c3b8", "#c0b0a6", "#e0d0c4", "#b8c6d8", "#d9bcd0"]

/-- Python `range(0, stop, 40)`. -/
def pyRange40 (stop : Nat) : List Nat :=
  (List.range ((stop + 39) / 40)).map (fun k => k * 40)

/-- The deterministic tiling pass of `_draw_background`: for each grid
corner `(x, y)` (pixel coordinates stepping by 40) a 40 by 40 rectangle
filled with `colors[(x + y) % len(colors)]`, in the iteration order of the
two nested loops. -/
def bg_tiles (width height : Nat) : List (Nat × Nat × String) :=
  (pyRange40 width).flatMap (fun x =>
    (pyRange40 height).map (fun y =>
      (x, y, background_colors.getD ((x + y) % background_colors.length) "")))

/-- Deterministic model of the process-global `random.randint`: an explicit
linear-congruential state.  The claims about the renderer concern only
determinism (equal states give equal draws) and which parts of the output
consume randomness, so the particular update function is irrelevant; what
matters is that each draw is a pure function of the threaded state. -/
def rngNext (g : Nat) : Nat := (1103515245 * g + 12345) % 2147483648

/-- `random.randint(lo, hi)` (inclusive bounds): returns the drawn value and
the advanced generator state. -/
def randint (lo hi : Nat) (g : Nat) : Nat × Nat :=
  (lo + rngNext g % (hi - lo + 1), rngNext g)

/-- One decoration dot of `_draw_background`. -/
structure Dot where
  radius : Nat
  cx : Nat
  cy : Nat
  color : String
deriving DecidableEq, Repr

/-- The decoration loop of `_draw_background`: for each of the `count`
iterations draw `radius = randint(2, 5)`, `cx = randint(0, width)`,
`cy = randint(0, height)` and a colour `accent_colors[randint(0, 4)]`, in
that order, threading the generator state. -/
def draw_dots (width height : Nat) : Nat → Nat → List Dot × Nat
  | 0, g => ([], g)
  | n + 1, g =>
    let r := randint 2 5 g
    let cx := randint 0 width r.2
    let cy := randint 0 height cx.2
    let ci := randint 0 (accent_colors.length - 1) cy.2
    let rest := draw_dots width height n ci.2
    (⟨r.1, cx.1, cy.1, accent_colors.getD ci.1 ""⟩ :: rest.1, rest.2)

/-- `_draw_background`: the deterministic tiling followed by 180 random
dots. -/
def draw_background (width height : Nat) (g : Nat) :
    List (Nat × Nat × String) × (List Dot × Nat) :=
  (bg_tiles width height, draw_dots width height 180 g)

/-- A PIL font as far as the renderer model needs it. -/
inductive Font where
  | truetype (name : String) (size : Nat)
  | fallback
deriving DecidableEq, Repr

/-- Environment of `make_image`: whether `ImageFont.truetype` succeeds for a
given name and size (false models the `OSError` branch), whether the
directory creation and the file write succeed, the second-resolution
timestamp, and the state of the global random generator at entry. -/
structure RenderEnv where
  truetypeOk : String → Nat → Bool
  mkdirOk : Bool
  saveOk : Bool
  timestamp : String
  seed : Nat

/-- The `try/except OSError` font block of `make_image`: both fonts come from
`truetype`, and a failure of either load (the second raises after the first
succeeded) leaves both variables bound to `ImageFont.load_default()`. -/
def pick_fonts (env : RenderEnv) : Font × Font :=
  if env.truetypeOk "DejaVuSans-Bold.ttf" 30 then
    if env.truetypeOk "DejaVuSans.ttf" 20 then
      (Font.truetype "DejaVuSans-Bold.ttf" 30, Font.truetype "DejaVuSans.ttf" 20)
    else (Font.fallback, Font.fallback)
  else (Font.fallback, Font.fallback)

/-- The observable outcome of `make_image`. -/
structure RenderResult where
  path : String
  tiles : List (Nat × Nat × String)
  dots : List Dot
  title : String
  title_font : Font
  body_font : Font
  body_lines : List Str

/-- `make_image` of `imagegen.py`.  The Python defaults are `width=900`,
`height=1200`, `output_dir="generated"`.  `Except.error` models a propagated
I/O failure from `mkdir` or `Image.save` (the only operations outside the
font `try` block that can raise). -/
def make_image (env : RenderEnv) (prompt : String) (width height : Nat)
    (output_dir : String) : Except String RenderResult :=
  if env.mkdirOk = false then
    Except.error "could not create output directory"
  else
    let output_path :=
      output_dir ++ "/matryoshka_prompt_" ++ env.timestamp ++ ".png"
    let bg := draw_background width height env.seed
    let fonts := pick_fonts env
    let body_lines := wrap_text prompt.data 60
    if env.saveOk = false then Except.error "could not write output file"
    else
      Except.ok
        ⟨output_path, bg.1, bg.2.1, "Matryoshka Prompt", fonts.1, fonts.2,
          body_lines⟩

/-! ### Basic lemmas about the embedding -/

theorem str_append_empty (s : String) : s ++ "" = s := by
  cases s with
  | mk data =>
    show String.mk (data ++ []) = String.mk data
    rw [List.append_nil]

theorem pyLower_eq_empty_iff (s : String) : pyLower s = "" ↔ s = "" := by
  cases s with
  | mk data =>
    constructor
    · intro h
      have hd : data.map Char.toLower = [] := congrArg String.data h
      have : data = [] := List.map_eq_nil_iff.mp hd
      rw [this]
    · intro h
      rw [h]
      rfl

/-- `String.intercalate` on a one-element list. -/
theorem intercalate_singleton (s a : String) : String.intercalate s [a] = a := rfl

theorem intercalate_go_append (s x y : String) (t : List String) :
    String.intercalate.go (x ++ y) s t = x ++ String.intercalate.go y s t := by
  induction t generalizing y with
  | nil => rfl
  | cons a t ih =>
    show String.intercalate.go (x ++ y ++ s ++ a) s t =
      x ++ String.intercalate.go (y ++ s ++ a) s t
    rw [String.append_assoc, String.append_assoc, ih, ← String.append_assoc]

/-- `String.intercalate` on a list with at least two elements. -/
theorem intercalate_cons₂ (s a b : String) (t : List String) :
    String.intercalate s (a :: b :: t) = a ++ s ++ String.intercalate s (b :: t) := by
  show String.intercalate.go (a ++ s ++ b) s t = a ++ s ++ String.intercalate.go b s t
  rw [← intercalate_go_append]

/-- The join rule as the counterexample to claim C1 forces it to be amended:
all but the last item separated by `", "`, the last item attached with
`" and "` and no comma before it. -/
def amended_join : List String → String
  | [] => ""
  | [a] => a
  | [a, b] => a ++ " and " ++ b
  | a :: b :: c :: t => a ++ ", " ++ amended_join (b :: c :: t)

theorem objects_list_eq_amended :
    ∀ l : List String, l ≠ [] → objects_list l = amended_join l
  | [a], _ => by
    show objects_list [a] = a
    simp [objects_list]
  | [a, b], _ => by
    show objects_list [a, b] = a ++ " and " ++ b
    unfold objects_list
    rw [if_neg (by simp)]
    show String.intercalate ", " [a] ++ " and " ++ b = a ++ " and " ++ b
    rw [intercalate_singleton]
  | a :: b :: c :: t, _ => by
    have ih := objects_list_eq_amended (b :: c :: t) (by simp)
    show objects_list (a :: b :: c :: t) = a ++ ", " ++ amended_join (b :: c :: t)
    rw [← ih]
    unfold objects_list
    rw [if_neg (by simp), if_neg (by simp)]
    show String.intercalate ", " (a :: (b :: c :: t).dropLast) ++ " and " ++
        (a :: b :: c :: t).getLastD "" =
      a ++ ", " ++
        (String.intercalate ", " (b :: c :: t).dropLast ++ " and " ++
          (b :: c :: t).getLastD "")
    have hdl : (b :: c :: t).dropLast = b :: (c :: t).dropLast := rfl
    have hgl : (a :: b :: c :: t).getLastD "" = (b :: c :: t).getLastD "" := rfl
    rw [hgl, hdl, intercalate_cons₂, ← hdl]
    simp only [String.append_assoc]

/-! ### Claim theorems: prompt composer -/

/-- Claim C1, counterexample: for the three cleaned items `a`, `b`, `c` the
held-objects clause produced by the code reads `"a, b and c"`, which differs
from the Oxford-comma form `"a, b, and c"` stated by the claim. -/
theorem C1_counterexample :
    objects_text "a, b, c" =
      " Each figure holds one of the following props: a, b and c." ∧
    (" Each figure holds one of the following props: a, b and c." : String) ≠
      " Each figure holds one of the following props: a, b, and c." :=
  ⟨rfl, by decide⟩

/-- Claim C1 as amended: for every `held_objects` whose cleaned list is
non-empty, the held-objects clause joins the items with `", "` between all
but the last and attaches the last with `" and "` and no comma before it
(`"a"`, `"a and b"`, `"a, b and c"`, ...), wrapped in the fixed sentence. -/
theorem C1_objects_clause (held_objects : String)
    (h : cleaned_objects held_objects ≠ []) :
    objects_text held_objects =
      " Each figure holds one of the following props: " ++
        amended_join (cleaned_objects held_objects) ++ "." := by
  unfold objects_text
  rw [if_neg (by simpa using h), objects_list_eq_amended _ h]

/-- Witness for C1: the amended rule evaluated on `"a, b, c"`. -/
theorem C1_witness :
    cleaned_objects "a, b, c" ≠ [] ∧
    objects_text "a, b, c" =
      " Each figure holds one of the following props: " ++
        amended_join (cleaned_objects "a, b, c") ++ "." :=
  ⟨by decide, C1_objects_clause "a, b, c" (by decide)⟩

/-- Claim C3: a secondary subject that is empty or equals "none" up to ASCII
case is excluded (the clause is exactly `"{primary} figures"`), and any other
non-empty secondary subject yields exactly
`"{primary} and {secondary} figures"`. -/
theorem C3_subjects_clause (primary secondary : String) :
    ((secondary = "" ∨ pyLower secondary = "none") →
      subjects_clause primary secondary = primary ++ " figures") ∧
    ((secondary ≠ "" ∧ pyLower secondary ≠ "none") →
      subjects_clause primary secondary =
        primary ++ " and " ++ secondary ++ " figures") := by
  constructor
  · intro h
    unfold subjects_clause
    rcases h with h | h
    · exact if_neg (fun hc => hc.1 h)
    · exact if_neg (fun hc => hc.2.1 h)
  · intro h
    unfold subjects_clause
    exact if_pos
      ⟨h.1, h.2, fun he => h.1 ((pyLower_eq_empty_iff secondary).mp he)⟩

/-- Witness for C3: both branches at concrete inputs. -/
theorem C3_witness :
    subjects_clause "matryoshka dolls" "None" = "matryoshka dolls figures" ∧
    subjects_clause "matryoshka dolls" "forest animals" =
      "matryoshka dolls and forest animals figures" :=
  ⟨(C3_subjects_clause "matryoshka dolls" "None").1 (Or.inr (by decide)),
   (C3_subjects_clause "matryoshka dolls" "forest animals").2
     ⟨by decide, by decide⟩⟩

/-- Claim C4: when the cleaned object list is empty, `objects_text` is the
empty string and the composed prompt is exactly the template with no
held-objects material at all, in particular without the
"Each figure holds one of the following props:" stub. -/
theorem C4_objects_clause_omitted (primary_subject secondary_subject
    scene_description background_color background_elements palette
    head_body_ratio : String) (apply_flat_faces : Bool)
    (mouth_color eye_style held_objects pattern_density texture_strength :
      String)
    (h : cleaned_objects held_objects = []) :
    objects_text held_objects = "" ∧
    build_prompt primary_subject secondary_subject scene_description
      background_color background_elements palette head_body_ratio
      apply_flat_faces mouth_color eye_style held_objects pattern_density
      texture_strength =
    "A vertical repeating wallpaper illustration that matches the reference matryoshka images.\n\n"
      ++ STYLE_RECIPE ++ "\n\n" ++
      "Scene: repeating, rounded " ++
      subjects_clause primary_subject secondary_subject ++ " " ++
      scene_description ++ ". " ++
      ("They have round plump faces with a head-to-body ratio of " ++
        head_body_ratio ++ ", no noses, tiny " ++ eye_style ++
        " eyes and small " ++ mouth_color ++
        " mouths with soft blush cheeks.") ++
      (if apply_flat_faces then
        " Faces are perfectly flat circles and bodies have smoothly curved bases for a natural transition."
      else "") ++ "\n\n" ++
      "Background: soft " ++ background_color ++ " with scattered, simple " ++
      background_elements ++ "; pattern density: " ++ pattern_density ++
      ".\n\n" ++
      "Palette: " ++ palette ++ "; texture intensity: " ++ texture_strength ++
      "; finish is grainy, soft, and matte." := by
  have ho : objects_text held_objects = "" := by
    unfold objects_text
    rw [h]
    rfl
  refine ⟨ho, ?_⟩
  unfold build_prompt
  simp only [ho, str_append_empty]

/-- Witness for C4: an all-whitespace object list. -/
theorem C4_witness :
    cleaned_objects " ,  , " = [] ∧ objects_text " ,  , " = "" :=
  ⟨by decide,
   (C4_objects_clause_omitted "a" "b" "c" "d" "e" "f" "g" true "h" "i"
     " ,  , " "j" "k" (by decide)).1⟩

/-! ### Claim theorems: background tiling -/

/-- The tiling re-expressed over cell indices, as the claim states it: cell
`(cx, cy)` gets the palette colour at index `(cx + cy) % 3`. -/
def cell_tiles (width height : Nat) : List (Nat × Nat × String) :=
  (List.range ((width + 39) / 40)).flatMap (fun cx =>
    (List.range ((height + 39) / 40)).map (fun cy =>
      (40 * cx, 40 * cy, background_colors.getD ((cx + cy) % 3) "")))

/-- Claim C6: for every width and height the tiling drawn by
`_draw_background` is exactly the cell-indexed tiling with colour index
`(cell_x + cell_y) % 3` (the code computes `(x + y) % 3` over pixel
coordinates, and `40 ≡ 1 [MOD 3]` makes the two agree); the tiling is a pure
function of the dimensions, hence identical across runs. -/
theorem C6_background_tiling (width height : Nat) :
    bg_tiles width height = cell_tiles width height := by
  unfold bg_tiles cell_tiles pyRange40
  rw [List.flatMap_map]
  refine List.flatMap_congr (fun cx _ => ?_)
  rw [List.map_map]
  refine List.map_congr_left (fun cy _ => ?_)
  simp only [Function.comp]
  have hmod :
      (cx * 40 + cy * 40) % background_colors.length = (cx + cy) % 3 := by
    show (cx * 40 + cy * 40) % 3 = (cx + cy) % 3
    omega
  rw [hmod, Nat.mul_comm cx 40, Nat.mul_comm cy 40]

/-! ### Claim theorems: backend dispatcher -/

/-- Claim C7: an absent backend module and a module without `make_image`
yield the informational messages (no exception), and an exception from the
backend is caught and surfaced as a message containing the original error
text. -/
theorem C7_generate_image_errors (prompt : String) (m : ImagegenModule)
    (err : String) :
    generate_image none prompt =
      (none, some "Image generation not configured: install or provide an `imagegen` module with `make_image()`.") ∧
    (m.has_make_image = false →
      generate_image (some m) prompt =
        (none, some "`imagegen` module found but missing `make_image` function.")) ∧
    (m.has_make_image = true → m.make_image_fn prompt = Except.error err →
      generate_image (some m) prompt =
        (none, some ("Image generation failed: " ++ err))) := by
  refine ⟨rfl, fun h => ?_, fun h1 h2 => ?_⟩
  · simp [generate_image, h]
  · simp [generate_image, h1, h2]

/-- Witness for C7: all three failure shapes at concrete backends. -/
theorem C7_witness :
    generate_image none "p" =
      (none, some "Image generation not configured: install or provide an `imagegen` module with `make_image()`.") ∧
    generate_image (some ⟨false, fun _ => Except.ok "x.png"⟩) "p" =
      (none, some "`imagegen` module found but missing `make_image` function.") ∧
    generate_image (some ⟨true, fun _ => Except.error "boom"⟩) "p" =
      (none, some "Image generation failed: boom") :=
  ⟨(C7_generate_image_errors "p" ⟨false, fun _ => Except.ok "x.png"⟩ "e").1,
   (C7_generate_image_errors "p" ⟨false, fun _ => Except.ok "x.png"⟩ "e").2.1
     rfl,
   (C7_generate_image_errors "p" ⟨true, fun _ => Except.error "boom"⟩
     "boom").2.2 rfl rfl⟩

/-! ### Claim theorems: renderer error handling and determinism -/

/-- Inversion principle for `make_image`: a successful render happens exactly
when the two I/O operations succeed, and then the result is the canonical
record. -/
theorem make_image_ok_iff (env : RenderEnv) (prompt : String)
    (width height : Nat) (dir : String) (r : RenderResult) :
    make_image env prompt width height dir = Except.ok r ↔
      env.mkdirOk = true ∧ env.saveOk = true ∧
      r = ⟨dir ++ "/matryoshka_prompt_" ++ env.timestamp ++ ".png",
           bg_tiles width height, (draw_dots width height 180 env.seed).1,
           "Matryoshka Prompt", (pick_fonts env).1, (pick_fonts env).2,
           wrap_text prompt.data 60⟩ := by
  unfold make_image draw_background
  cases hm : env.mkdirOk with
  | false => simp [hm]
  | true =>
    cases hs : env.saveOk with
    | false => simp [hs]
    | true => simp [hs, eq_comm]

/-- Claim C8: if loading either named font raises, `make_image` still
completes with both fonts replaced by the built-in default and returns the
timestamped path; no error is surfaced for the fonts (the remaining `Except`
hypotheses isolate the unrelated I/O operations). -/
theorem C8_font_fallback (env : RenderEnv) (prompt : String)
    (width height : Nat) (output_dir : String)
    (hmk : env.mkdirOk = true) (hsave : env.saveOk = true)
    (hfont : env.truetypeOk "DejaVuSans-Bold.ttf" 30 = false ∨
      env.truetypeOk "DejaVuSans.ttf" 20 = false) :
    ∃ r : RenderResult,
      make_image env prompt width height output_dir = Except.ok r ∧
      r.title_font = Font.fallback ∧ r.body_font = Font.fallback ∧
      r.path = output_dir ++ "/matryoshka_prompt_" ++ env.timestamp ++
        ".png" := by
  have hfonts : pick_fonts env = (Font.fallback, Font.fallback) := by
    unfold pick_fonts
    rcases hfont with h | h <;> simp [h]
  refine ⟨⟨output_dir ++ "/matryoshka_prompt_" ++ env.timestamp ++ ".png",
    bg_tiles width height, (draw_dots width height 180 env.seed).1,
    "Matryoshka Prompt", Font.fallback, Font.fallback,
    wrap_text prompt.data 60⟩, ?_, rfl, rfl, rfl⟩
  rw [make_image_ok_iff]
  exact ⟨hmk, hsave, by rw [hfonts]⟩

/-- Witness for C8: a concrete environment whose font loads all fail. -/
theorem C8_witness :
    ∃ r : RenderResult,
      make_image ⟨fun _ _ => false, true, true, "20260101_120000", 0⟩
        "hello" 900 1200 "generated" = Except.ok r ∧
      r.title_font = Font.fallback ∧ r.body_font = Font.fallback ∧
      r.path = "generated" ++ "/matryoshka_prompt_" ++ "20260101_120000" ++
        ".png" :=
  C8_font_fallback ⟨fun _ _ => false, true, true, "20260101_120000", 0⟩
    "hello" 900 1200 "generated" rfl rfl (Or.inl rfl)

theorem draw_dots_length (width height : Nat) :
    ∀ n g : Nat, (draw_dots width height n g).1.length = n
  | 0, _ => rfl
  | n + 1, g => by
    unfold draw_dots
    simp [draw_dots_length width height n]

/-- Claim C9: with the global random state threaded explicitly, two renders
with identical prompt, dimensions and random state produce identical
decoration (the 180 dots), and the decoration is the only part of the render
that depends on the random state: tiles, title, wrapped body lines, path
(given equal timestamps) and fonts (given equal font environments) agree
across arbitrary seeds. -/
theorem C9_decoration_determinism (env1 env2 : RenderEnv) (prompt : String)
    (width height : Nat) (output_dir : String) (r1 r2 : RenderResult)
    (h1 : make_image env1 prompt width height output_dir = Except.ok r1)
    (h2 : make_image env2 prompt width height output_dir = Except.ok r2) :
    (env1.seed = env2.seed → r1.dots = r2.dots) ∧
    r1.dots.length = 180 ∧
    r1.tiles = r2.tiles ∧
    r1.title = r2.title ∧
    r1.body_lines = r2.body_lines ∧
    (env1.timestamp = env2.timestamp → r1.path = r2.path) ∧
    (env1.truetypeOk = env2.truetypeOk →
      r1.title_font = r2.title_font ∧ r1.body_font = r2.body_font) := by
  obtain ⟨-, -, e1⟩ := (make_image_ok_iff env1 prompt width height output_dir
    r1).mp h1
  obtain ⟨-, -, e2⟩ := (make_image_ok_iff env2 prompt width height output_dir
    r2).mp h2
  subst e1
  subst e2
  refine ⟨fun hs => by rw [hs], draw_dots_length width height 180 env1.seed,
    rfl, rfl, rfl, fun ht => by rw [ht], fun hf => ?_⟩
  constructor <;> · unfold pick_fonts; rw [hf]

/-- Witness for C9: a concrete environment, applied on both sides. -/
theorem C9_witness :
    ((draw_dots 50 50 180 7).1 = (draw_dots 50 50 180 7).1) ∧
    (draw_dots 50 50 180 7).1.length = 180 :=
  have h := C9_decoration_determinism
    ⟨fun _ _ => true, true, true, "t", 7⟩ ⟨fun _ _ => true, true, true, "t", 7⟩
    "p" 50 50 "g"
    ⟨"g" ++ "/matryoshka_prompt_" ++ "t" ++ ".png", bg_tiles 50 50,
      (draw_dots 50 50 180 7).1, "Matryoshka Prompt",
      Font.truetype "DejaVuSans-Bold.ttf" 30,
      Font.truetype "DejaVuSans.ttf" 20, wrap_text "p".data 60⟩
    ⟨"g" ++ "/matryoshka_prompt_" ++ "t" ++ ".png", bg_tiles 50 50,
      (draw_dots 50 50 180 7).1, "Matryoshka Prompt",
      Font.truetype "DejaVuSans-Bold.ttf" 30,
      Font.truetype "DejaVuSans.ttf" 20, wrap_text "p".data 60⟩
    (by rw [make_image_ok_iff]; exact ⟨rfl, rfl, rfl⟩)
    (by rw [make_image_ok_iff]; exact ⟨rfl, rfl, rfl⟩)
  ⟨h.1 rfl, h.2.1⟩

/-! ### Infrastructure for the word-wrap claims -/

/-- Every character is whitespace. -/
def allWs (s : Str) : Prop := ∀ c ∈ s, isPySpace c = true

/-- No character is whitespace. -/
def wsFree (s : Str) : Prop := ∀ c ∈ s, isPySpace c = false

instance (s : Str) : Decidable (wsFree s) :=
  decidable_of_iff (∀ c ∈ s, isPySpace c = false) Iff.rfl

instance (s : Str) : Decidable (allWs s) :=
  decidable_of_iff (∀ c ∈ s, isPySpace c = true) Iff.rfl

theorem dropWhile_eq_self_of_all {p : Char → Bool} :
    ∀ {s : Str}, (∀ c ∈ s, p c = false) → s.dropWhile p = s
  | [], _ => rfl
  | c :: cs, h => by
    simp [List.dropWhile_cons, h c (List.mem_cons_self c cs)]

theorem dropWhile_eq_nil_of_all {p : Char → Bool} :
    ∀ {s : Str}, (∀ c ∈ s, p c = true) → s.dropWhile p = []
  | [], _ => rfl
  | c :: cs, h => by
    rw [List.dropWhile_cons, if_pos (h c (List.mem_cons_self c cs))]
    exact dropWhile_eq_nil_of_all (fun d hd => h d (List.mem_cons_of_mem c hd))

theorem all_of_dropWhile_eq_nil {p : Char → Bool} :
    ∀ {s : Str}, s.dropWhile p = [] → ∀ c ∈ s, p c = true
  | [], _, c, hc => absurd hc (List.not_mem_nil c)
  | a :: as, h, c, hc => by
    by_cases hpa : p a
    · rw [List.dropWhile_cons, if_pos hpa] at h
      rcases List.mem_cons.mp hc with rfl | hc2
      · exact hpa
      · exact all_of_dropWhile_eq_nil h c hc2
    · rw [List.dropWhile_cons, if_neg hpa] at h
      exact absurd h (by simp)

theorem pyStrip_eq_self {s : Str} (h : wsFree s) : pyStrip s = s := by
  unfold pyStrip
  rw [dropWhile_eq_self_of_all h,
    dropWhile_eq_self_of_all (fun c hc => h c (List.mem_reverse.mp hc)),
    List.reverse_reverse]

theorem pyStrip_eq_nil {s : Str} (h : allWs s) : pyStrip s = [] := by
  unfold pyStrip
  rw [dropWhile_eq_nil_of_all h]
  rfl

theorem allWs_of_pyStrip_eq_nil {s : Str} (h : pyStrip s = []) : allWs s := by
  unfold pyStrip at h
  rw [List.reverse_eq_nil_iff] at h
  have h2 : ∀ c ∈ (s.dropWhile isPySpace).reverse, isPySpace c = true :=
    all_of_dropWhile_eq_nil h
  have h3 : ∀ c ∈ s.dropWhile isPySpace, isPySpace c = true :=
    fun c hc => h2 c (List.mem_reverse.mpr hc)
  intro c hc
  rw [← List.takeWhile_append_dropWhile isPySpace s] at hc
  rcases List.mem_append.mp hc with h4 | h4
  · have : (s.takeWhile isPySpace).all isPySpace = true := List.all_takeWhile
    exact List.all_eq_true.mp this c h4
  · exact h3 c h4

theorem isWsChunk_iff (c : Str) : isWsChunk c = true ↔ allWs c := by
  unfold isWsChunk
  rw [List.isEmpty_iff]
  exact ⟨allWs_of_pyStrip_eq_nil, pyStrip_eq_nil⟩

theorem isWsChunk_eq_false {c : Str} (hne : c ≠ []) (hw : wsFree c) :
    isWsChunk c = false := by
  rw [Bool.eq_false_iff]
  intro h
  have := (isWsChunk_iff c).mp h
  match c, hne with
  | a :: as, _ =>
    have h1 := this a (List.mem_cons_self a as)
    have h2 := hw a (List.mem_cons_self a as)
    rw [h1] at h2
    exact Bool.true_eq_false.mp h2

/-! Chunk-list structure predicates. -/

/-- The head chunk, when present, is a non-empty whitespace-free word. -/
def headNonWs : List Str → Prop
  | [] => True
  | c :: _ => c ≠ [] ∧ wsFree c

/-- The head character of a string, when present, is not whitespace. -/
def headNotWs : Str → Prop
  | [] => True
  | c :: _ => isPySpace c = false

/-- Chunk lists as produced by the splitter: every chunk non-empty and
homogeneous (all-whitespace or whitespace-free), and never two consecutive
whitespace chunks. -/
inductive Chunky : List Str → Prop
  | nil : Chunky []
  | word {c : Str} {l : List Str} : c ≠ [] → wsFree c → Chunky l →
      Chunky (c :: l)
  | ws {c : Str} {l : List Str} : c ≠ [] → allWs c → headNonWs l →
      Chunky l → Chunky (c :: l)

/-- Strictly alternating chunk lists (hyphen-free splits): the flag tells
whether the head chunk, if any, is a whitespace run. -/
inductive Alt : Bool → List Str → Prop
  | nil (b : Bool) : Alt b []
  | word {c : Str} {l : List Str} : c ≠ [] → wsFree c → Alt true l →
      Alt false (c :: l)
  | ws {c : Str} {l : List Str} : c ≠ [] → allWs c → Alt false l →
      Alt true (c :: l)

/-- The word chunks of a chunk list. -/
def wordChunks (l : List Str) : List Str := l.filter (fun c => !(isWsChunk c))

theorem wordChunks_append (a b : List Str) :
    wordChunks (a ++ b) = wordChunks a ++ wordChunks b := by
  unfold wordChunks
  exact List.filter_append a b

theorem chunky_of_alt : ∀ {b : Bool} {l : List Str}, Alt b l → Chunky l
  | _, _, Alt.nil _ => Chunky.nil
  | _, _, Alt.word hne hw h => Chunky.word hne hw (chunky_of_alt h)
  | _, _, Alt.ws hne hw h => by
    refine Chunky.ws hne hw ?_ (chunky_of_alt h)
    cases h with
    | nil => trivial
    | word hne2 hw2 _ => exact ⟨hne2, hw2⟩

/-! The word decomposition of a Python string (maximal whitespace-free
runs), written with an accumulator so that every lemma is a structural
induction. -/

/-- Emit the pending reversed word accumulator. -/
def emitAcc (acc : Str) : List Str := if acc.isEmpty then [] else [acc.reverse]

def pyWordsAux : Str → Str → List Str
  | [], acc => emitAcc acc
  | c :: cs, acc =>
    if isPySpace c then emitAcc acc ++ pyWordsAux cs []
    else pyWordsAux cs (c :: acc)

/-- The maximal whitespace-free runs of a string, in order. -/
def pyWords (s : Str) : List Str := pyWordsAux s []

theorem emitAcc_nil : emitAcc [] = [] := rfl

theorem emitAcc_ne_nil {acc : Str} (h : acc ≠ []) : emitAcc acc = [acc.reverse] := by
  unfold emitAcc
  rw [if_neg]
  simpa using h

theorem pyWordsAux_allWs {w : Str} (hw : allWs w) :
    ∀ acc, pyWordsAux w acc = emitAcc acc := by
  induction w with
  | nil => intro acc; rfl
  | cons c cs ih =>
    intro acc
    unfold pyWordsAux
    rw [if_pos (hw c (List.mem_cons_self c cs))]
    rw [ih (fun d hd => hw d (List.mem_cons_of_mem c hd)) [], emitAcc_nil,
      List.append_nil]

theorem pyWordsAux_cons_ws {c : Char} (h : isPySpace c = true) (cs acc : Str) :
    pyWordsAux (c :: cs) acc = emitAcc acc ++ pyWordsAux cs [] := by
  show (if isPySpace c = true then emitAcc acc ++ pyWordsAux cs []
    else pyWordsAux cs (c :: acc)) = _
  rw [if_pos h]

theorem pyWordsAux_cons_word {c : Char} (h : isPySpace c = false)
    (cs acc : Str) : pyWordsAux (c :: cs) acc = pyWordsAux cs (c :: acc) := by
  show (if isPySpace c = true then emitAcc acc ++ pyWordsAux cs []
    else pyWordsAux cs (c :: acc)) = _
  rw [if_neg (by rw [h]; simp)]

theorem pyWordsAux_word_append {w : Str} (hw : wsFree w) :
    ∀ acc t, pyWordsAux (w ++ t) acc = pyWordsAux t (w.reverse ++ acc) := by
  induction w with
  | nil => intro acc t; rfl
  | cons c cs ih =>
    intro acc t
    show pyWordsAux (c :: (cs ++ t)) acc = _
    rw [pyWordsAux_cons_word (hw c (List.mem_cons_self c cs))]
    rw [ih (fun d hd => hw d (List.mem_cons_of_mem c hd)) (c :: acc) t]
    rw [List.reverse_cons, List.append_assoc, List.singleton_append]

theorem pyWordsAux_allWs_append {w : Str} (hw : allWs w) :
    ∀ t, pyWordsAux (w ++ t) [] = pyWordsAux t [] := by
  induction w with
  | nil => intro t; rfl
  | cons c cs ih =>
    intro t
    show pyWordsAux (c :: (cs ++ t)) [] = _
    rw [pyWordsAux_cons_ws (hw c (List.mem_cons_self c cs)), emitAcc_nil,
      List.nil_append]
    exact ih (fun d hd => hw d (List.mem_cons_of_mem c hd)) t

theorem pyWordsAux_ws_append {w : Str} (hw : allWs w) (hne : w ≠ []) :
    ∀ acc t, pyWordsAux (w ++ t) acc = emitAcc acc ++ pyWordsAux t [] := by
  intro acc t
  match w, hne, hw with
  | c :: cs, _, hw =>
    show pyWordsAux (c :: (cs ++ t)) acc = _
    rw [pyWordsAux_cons_ws (hw c (List.mem_cons_self c cs))]
    rw [pyWordsAux_allWs_append (fun d hd => hw d (List.mem_cons_of_mem c hd))
      t]

/-- Words of the concatenation of an alternating chunk list: exactly its word
chunks.  Stated with both flags so that the induction goes through. -/
theorem pyWords_flatten_alt (n : Nat) :
    ∀ {chunks : List Str} {b : Bool}, chunks.length ≤ n → Alt b chunks →
      (b = false → pyWordsAux chunks.flatten [] = wordChunks chunks) ∧
      (b = true → ∀ acc,
        pyWordsAux chunks.flatten acc = emitAcc acc ++ wordChunks chunks) := by
  induction n with
  | zero =>
    intro chunks b hlen halt
    cases halt with
    | nil =>
      constructor
      · intro _; rfl
      · intro _ acc
        show emitAcc acc = emitAcc acc ++ []
        rw [List.append_nil]
    | word hne hw halt2 => exact absurd hlen (by simp)
    | ws hne hw halt2 => exact absurd hlen (by simp)
  | succ n ihn =>
    intro chunks b hlen halt
    cases halt with
    | nil =>
      constructor
      · intro _; rfl
      · intro _ acc
        show emitAcc acc = emitAcc acc ++ []
        rw [List.append_nil]
    | @word c l hne hw halt2 =>
      have ih := ihn (by simpa using hlen : l.length <= n) halt2
      constructor
      · intro _
        show pyWordsAux ((c :: l).flatten) [] = _
        rw [List.flatten_cons, pyWordsAux_word_append hw [] l.flatten]
        rw [show c.reverse ++ ([] : Str) = c.reverse from List.append_nil c.reverse]
        rw [ih.2 rfl c.reverse, emitAcc_ne_nil (by simpa using hne),
          List.reverse_reverse]
        show [c] ++ wordChunks l = wordChunks (c :: l)
        unfold wordChunks
        rw [List.filter_cons, if_pos (by rw [isWsChunk_eq_false hne hw]; rfl)]
        rfl
      · intro hb
        exact absurd hb (by simp)
    | @ws c l hne hw halt2 =>
      have ih := ihn (by simpa using hlen : l.length <= n) halt2
      constructor
      · intro hb
        exact absurd hb (by simp)
      · intro _ acc
        show pyWordsAux ((c :: l).flatten) acc = _
        rw [List.flatten_cons, pyWordsAux_ws_append hw hne acc l.flatten]
        rw [ih.1 rfl]
        show _ = emitAcc acc ++ wordChunks (c :: l)
        unfold wordChunks
        rw [List.filter_cons,
          if_neg (by rw [(isWsChunk_iff c).mpr hw]; simp)]

/-! Size bookkeeping for the wrap loop. -/

theorem sumLen_nil : sumLen [] = 0 := rfl

theorem sumLen_cons (c : Str) (l : List Str) :
    sumLen (c :: l) = c.length + sumLen l := by
  unfold sumLen
  rw [List.map_cons, List.sum_cons]

theorem sumLen_append (a b : List Str) :
    sumLen (a ++ b) = sumLen a + sumLen b := by
  unfold sumLen
  rw [List.map_append, List.sum_append]

theorem length_flatten_eq (l : List Str) : l.flatten.length = sumLen l := by
  rw [List.length_flatten]
  rfl

/-- Measure for the wrap loop: total characters plus chunk count. -/
def chunkMu (l : List Str) : Nat := sumLen l + l.length

/-! `fillLine` lemmas. -/

theorem fillLine_cons (width n : Nat) (c : Str) (cs : List Str) :
    fillLine width n (c :: cs) =
      if n + c.length ≤ width then
        (c :: (fillLine width (n + c.length) cs).1,
          (fillLine width (n + c.length) cs).2)
      else ([], c :: cs) := by
  show (if n + c.length ≤ width then
      (c :: (fillLine width (n + c.length) cs).1,
        (fillLine width (n + c.length) cs).2)
    else ([], c :: cs)) = _
  rfl

theorem fillLine_append (width : Nat) :
    ∀ (n : Nat) (l : List Str),
      (fillLine width n l).1 ++ (fillLine width n l).2 = l
  | _, [] => rfl
  | n, c :: cs => by
    rw [fillLine_cons]
    by_cases h : n + c.length ≤ width
    · rw [if_pos h]
      show c :: ((fillLine width (n + c.length) cs).1 ++
        (fillLine width (n + c.length) cs).2) = c :: cs
      rw [fillLine_append width (n + c.length) cs]
    · rw [if_neg h]
      rfl

theorem fillLine_sum (width : Nat) :
    ∀ (n : Nat) (l : List Str),
      (fillLine width n l).1 = [] ∨ n + sumLen (fillLine width n l).1 ≤ width
  | _, [] => Or.inl rfl
  | n, c :: cs => by
    rw [fillLine_cons]
    by_cases h : n + c.length ≤ width
    · rw [if_pos h]
      right
      show n + sumLen (c :: (fillLine width (n + c.length) cs).1) ≤ width
      rw [sumLen_cons]
      rcases fillLine_sum width (n + c.length) cs with h2 | h2
      · rw [h2, sumLen_nil]
        omega
      · omega
    · rw [if_neg h]
      exact Or.inl rfl

theorem fillLine_all (width : Nat) :
    ∀ (n : Nat) (l : List Str), n + sumLen l ≤ width →
      fillLine width n l = (l, [])
  | _, [], _ => rfl
  | n, c :: cs, h => by
    rw [sumLen_cons] at h
    rw [fillLine_cons, if_pos (by omega),
      fillLine_all width (n + c.length) cs (by omega)]

theorem fillLine_rest_of_nil (width n : Nat) (l : List Str)
    (h : (fillLine width n l).1 = []) : (fillLine width n l).2 = l := by
  have := fillLine_append width n l
  rw [h] at this
  exact this

theorem fillLine_nil_no_fit (width n : Nat) (c : Str) (cs : List Str)
    (h : (fillLine width n (c :: cs)).1 = []) : ¬ n + c.length ≤ width := by
  intro hfit
  rw [fillLine_cons, if_pos hfit] at h
  exact absurd h (by simp)

/-! `longWordEnd` lemmas. -/

theorem rfindHyphen_lt {chunk : Str} {stop h : Nat}
    (hh : rfindHyphen chunk stop = some h) : h < (chunk.take stop).length := by
  unfold rfindHyphen at hh
  rcases Option.map_eq_some'.mp hh with ⟨j, hj, rfl⟩
  have hjlt : j < (chunk.take stop).reverse.length :=
    (List.findIdx?_eq_some_iff_findIdx_eq.mp hj).1
  rw [List.length_reverse] at hjlt
  omega

theorem longWordEnd_le (chunk : Str) (sl : Nat) : longWordEnd chunk sl ≤ sl := by
  unfold longWordEnd
  by_cases h1 : sl < chunk.length
  · rw [if_pos h1]
    cases hh : rfindHyphen chunk sl with
    | none => exact Nat.le_refl sl
    | some h =>
      have hlt := rfindHyphen_lt hh
      have hle : (chunk.take sl).length ≤ sl := by
        rw [List.length_take]
        omega
      show (if 0 < h ∧ ((chunk.take h).any fun c => c != '-') = true
        then h + 1 else sl) ≤ sl
      by_cases h2 : 0 < h ∧ ((chunk.take h).any fun c => c != '-') = true
      · rw [if_pos h2]
        omega
      · rw [if_neg h2]
  · rw [if_neg h1]

theorem longWordEnd_pos (chunk : Str) (sl : Nat) (h : 1 ≤ sl) :
    1 ≤ longWordEnd chunk sl := by
  unfold longWordEnd
  by_cases h1 : sl < chunk.length
  · rw [if_pos h1]
    cases hh : rfindHyphen chunk sl with
    | none => exact h
    | some hy =>
      show 1 ≤ (if 0 < hy ∧ ((chunk.take hy).any fun c => c != '-') = true
        then hy + 1 else sl)
      by_cases h2 : 0 < hy ∧ ((chunk.take hy).any fun c => c != '-') = true
      · rw [if_pos h2]
        omega
      · rw [if_neg h2]
        exact h
  · rw [if_neg h1]
    exact h

/-! `lineAssembly` and `dropTrailingWs` lemmas. -/

theorem lineAssembly_flatten (width : Nat) (l : List Str) :
    (lineAssembly width l).1.flatten ++ (lineAssembly width l).2.flatten =
      l.flatten := by
  have happ := fillLine_append width 0 l
  have hfl : l.flatten = ((fillLine width 0 l).1 ++
      (fillLine width 0 l).2).flatten := by rw [happ]
  unfold lineAssembly
  cases hf : fillLine width 0 l with
  | mk taken rest =>
    rw [hf] at hfl
    cases rest with
    | nil =>
      show taken.flatten ++ List.flatten [] = l.flatten
      rw [hfl]
      simp
    | cons d ds =>
      dsimp only
      by_cases hlong : width < d.length
      · rw [if_pos hlong]
        show (taken ++
          [d.take (longWordEnd d
            (if width < 1 then 1 else width - sumLen taken))]).flatten ++
          (d.drop (longWordEnd d
            (if width < 1 then 1 else width - sumLen taken)) :: ds).flatten =
          l.flatten
        rw [hfl]
        simp only [List.flatten_append, List.flatten_cons, List.flatten_nil,
          List.append_nil]
        rw [List.append_assoc, ← List.append_assoc (d.take _),
          List.take_append_drop]
      · rw [if_neg hlong]
        rw [hfl]
        exact (List.flatten_append _ _).symm

theorem dropTrailingWs_cases (l : List Str) :
    dropTrailingWs l = l ∨
      ∃ last, l = l.dropLast ++ [last] ∧ isWsChunk last = true ∧
        dropTrailingWs l = l.dropLast := by
  unfold dropTrailingWs
  cases hl : l.getLast? with
  | none => exact Or.inl rfl
  | some last =>
    have hne : l ≠ [] := by
      intro h
      rw [h] at hl
      exact absurd hl (by simp)
    have hgl : l.getLast hne = last := by
      rw [List.getLast?_eq_getLast l hne, Option.some.injEq] at hl
      exact hl
    by_cases hws : isWsChunk last
    · refine Or.inr ⟨last, ?_, hws, ?_⟩
      · conv_lhs => rw [← List.dropLast_concat_getLast hne]
        rw [hgl]
      · show (if isWsChunk last = true then l.dropLast else l) = l.dropLast
        rw [if_pos hws]
    · refine Or.inl ?_
      show (if isWsChunk last = true then l.dropLast else l) = l
      rw [if_neg hws]

theorem eq_nil_of_allWs_wsFree {c : Str} (h1 : allWs c) (h2 : wsFree c) :
    c = [] := by
  cases c with
  | nil => rfl
  | cons a as =>
    have t1 := h1 a (List.mem_cons_self a as)
    have t2 := h2 a (List.mem_cons_self a as)
    rw [t1] at t2
    exact absurd t2 (by simp)

theorem chunkMu_append (a b : List Str) :
    chunkMu (a ++ b) = chunkMu a + chunkMu b := by
  unfold chunkMu
  rw [sumLen_append, List.length_append]
  omega

theorem chunkMu_pos {l : List Str} (h : l ≠ []) : 1 ≤ chunkMu l := by
  cases l with
  | nil => exact absurd rfl h
  | cons c cs =>
    unfold chunkMu
    simp
    omega

theorem chunkMu_cons (c : Str) (l : List Str) :
    chunkMu (c :: l) = c.length + 1 + chunkMu l := by
  unfold chunkMu
  rw [sumLen_cons]
  simp
  omega

/-- Complete case analysis of `lineAssembly`. -/
theorem lineAssembly_spec (width : Nat) (l : List Str) :
    (∃ taken, fillLine width 0 l = (taken, []) ∧
      lineAssembly width l = (taken, [])) ∨
    (∃ taken d ds, fillLine width 0 l = (taken, d :: ds) ∧
      ¬ width < d.length ∧ lineAssembly width l = (taken, d :: ds)) ∨
    (∃ taken d ds,
      fillLine width 0 l = (taken, d :: ds) ∧ width < d.length ∧
      lineAssembly width l =
        (taken ++
          [d.take (longWordEnd d
            (if width < 1 then 1 else width - sumLen taken))],
          d.drop (longWordEnd d
            (if width < 1 then 1 else width - sumLen taken)) :: ds)) := by
  cases hf : fillLine width 0 l with
  | mk taken rest =>
    cases rest with
    | nil =>
      refine Or.inl ⟨taken, rfl, ?_⟩
      unfold lineAssembly
      rw [hf]
    | cons d ds =>
      by_cases hlong : width < d.length
      · refine Or.inr (Or.inr ⟨taken, d, ds, rfl, hlong, ?_⟩)
        unfold lineAssembly
        rw [hf]
        dsimp only
        rw [if_pos hlong]
      · refine Or.inr (Or.inl ⟨taken, d, ds, rfl, hlong, ?_⟩)
        unfold lineAssembly
        rw [hf]
        dsimp only
        rw [if_neg hlong]

/-- The chunks of the assembled line are chunks of the input or a `take` of
one of them; the remaining chunks are chunks of the input or a `drop` of one
of them. -/
theorem lineAssembly_mem (width : Nat) (l : List Str) :
    (∀ x ∈ (lineAssembly width l).1,
      x ∈ l ∨ ∃ d ∈ l, ∃ n, x = d.take n) ∧
    (∀ x ∈ (lineAssembly width l).2,
      x ∈ l ∨ ∃ d ∈ l, ∃ n, x = d.drop n) := by
  have happ := fillLine_append width 0 l
  rcases lineAssembly_spec width l with ⟨taken, hf, hla⟩ |
    ⟨taken, d, ds, hf, hlong, hla⟩ | ⟨taken, d, ds, hf, hlong, hla⟩ <;>
    rw [hf] at happ <;> rw [hla] <;> dsimp only at happ ⊢
  · constructor
    · intro x hx
      exact Or.inl (by rw [← happ]; exact List.mem_append_left [] hx)
    · intro x hx
      exact absurd hx (List.not_mem_nil x)
  · constructor
    · intro x hx
      exact Or.inl (by rw [← happ]; exact List.mem_append_left _ hx)
    · intro x hx
      exact Or.inl (by rw [← happ]; exact List.mem_append_right _ hx)
  · have hdmem : d ∈ l := by
      rw [← happ]
      exact List.mem_append_right _ (List.mem_cons_self d ds)
    constructor
    · intro x hx
      rcases List.mem_append.mp hx with hx1 | hx1
      · exact Or.inl (by rw [← happ]; exact List.mem_append_left _ hx1)
      · rcases List.mem_singleton.mp hx1 with rfl
        exact Or.inr ⟨d, hdmem, _, rfl⟩
    · intro x hx
      rcases List.mem_cons.mp hx with rfl | hx1
      · exact Or.inr ⟨d, hdmem, _, rfl⟩
      · have hmem : x ∈ taken ++ d :: ds :=
          List.mem_append_right _ (List.mem_cons_of_mem d hx1)
        rw [happ] at hmem
        exact Or.inl hmem

/-- The line never exceeds the width. -/
theorem lineAssembly_sum (width : Nat) (hw : 1 ≤ width) (l : List Str) :
    sumLen (lineAssembly width l).1 ≤ width := by
  have hsum : (fillLine width 0 l).1 = [] ∨
      sumLen (fillLine width 0 l).1 ≤ width := by
    rcases fillLine_sum width 0 l with h | h
    · exact Or.inl h
    · exact Or.inr (by omega)
  rcases lineAssembly_spec width l with ⟨taken, hf, hla⟩ |
    ⟨taken, d, ds, hf, hlong, hla⟩ | ⟨taken, d, ds, hf, hlong, hla⟩ <;>
    rw [hf] at hsum <;> rw [hla] <;> dsimp only at hsum ⊢
  · rcases hsum with h | h
    · rw [h, sumLen_nil]; omega
    · exact h
  · rcases hsum with h | h
    · rw [h, sumLen_nil]; omega
    · exact h
  · have htk : sumLen taken ≤ width := by
      rcases hsum with h | h
      · rw [h, sumLen_nil]; omega
      · exact h
    rw [sumLen_append, sumLen_cons, sumLen_nil]
    have hsl : (if width < 1 then 1 else width - sumLen taken) =
        width - sumLen taken := by
      rw [if_neg (by omega)]
    have hle := longWordEnd_le d (if width < 1 then 1 else width - sumLen taken)
    have htake : (d.take (longWordEnd d
        (if width < 1 then 1 else width - sumLen taken))).length ≤
        longWordEnd d (if width < 1 then 1 else width - sumLen taken) := by
      rw [List.length_take]
      omega
    omega

theorem hdrop_eq (width : Nat) (d : Str) (taken : List Str) :
    (d.drop (longWordEnd d
      (if width < 1 then 1 else width - sumLen taken))).length =
    d.length - longWordEnd d
      (if width < 1 then 1 else width - sumLen taken) := by
  rw [List.length_drop]

/-- Progress: each outer iteration strictly shrinks the measure. -/
theorem lineAssembly_mu (width : Nat) (hw : 1 ≤ width) (l : List Str)
    (hne : l ≠ []) : chunkMu (lineAssembly width l).2 < chunkMu l := by
  have happ := fillLine_append width 0 l
  rcases lineAssembly_spec width l with ⟨taken, hf, hla⟩ |
    ⟨taken, d, ds, hf, hlong, hla⟩ | ⟨taken, d, ds, hf, hlong, hla⟩ <;>
    rw [hf] at happ <;> rw [hla] <;> dsimp only at happ ⊢
  · show chunkMu [] < chunkMu l
    have h1 := chunkMu_pos hne
    have h0 : chunkMu ([] : List Str) = 0 := rfl
    omega
  · have htaken : taken ≠ [] := by
      intro h
      subst h
      have hl : l = d :: ds := by rw [← happ]; rfl
      rw [hl] at hf
      have hnofit := fillLine_nil_no_fit width 0 d ds (by rw [hf])
      omega
    rw [← happ, chunkMu_append]
    have := chunkMu_pos htaken
    omega
  · rw [← happ, chunkMu_append, chunkMu_cons, chunkMu_cons, hdrop_eq width d taken]
    have hdlen : 1 ≤ d.length := by omega
    by_cases htk : taken = []
    · have hsl : (if width < 1 then 1 else width - sumLen taken) = width := by
        rw [htk, sumLen_nil, if_neg (by omega)]
        omega
      have hpos : 1 ≤ longWordEnd d
          (if width < 1 then 1 else width - sumLen taken) := by
        rw [hsl]
        exact longWordEnd_pos d width hw
      have hz : chunkMu taken = 0 := by rw [htk]; rfl
      omega
    · have := chunkMu_pos htk
      omega

/-- Unfolding equation for one outer iteration of `_wrap_chunks`. -/
theorem wrapChunksGo_cons (width fuel : Nat) (first : Bool) (c : Str)
    (cs : List Str) :
    wrapChunksGo width (fuel + 1) first (c :: cs) =
      if (dropTrailingWs (lineAssembly width
          (if !first && isWsChunk c then cs else c :: cs)).1).isEmpty then
        wrapChunksGo width fuel first (lineAssembly width
          (if !first && isWsChunk c then cs else c :: cs)).2
      else
        (dropTrailingWs (lineAssembly width
          (if !first && isWsChunk c then cs else c :: cs)).1).flatten ::
          wrapChunksGo width fuel false (lineAssembly width
            (if !first && isWsChunk c then cs else c :: cs)).2 := rfl

theorem dropTrailingWs_sum_le (l : List Str) :
    sumLen (dropTrailingWs l) ≤ sumLen l := by
  rcases dropTrailingWs_cases l with h | ⟨last, hl, hws, h⟩
  · rw [h]
  · rw [h]
    conv_rhs => rw [hl]
    rw [sumLen_append]
    omega

/-- Every line produced by the wrap loop fits in the width. -/
theorem wrapChunksGo_width (width : Nat) (hw : 1 ≤ width) :
    ∀ (fuel : Nat) (first : Bool) (chunks : List Str),
      ∀ l ∈ wrapChunksGo width fuel first chunks, l.length ≤ width
  | 0, _, _ => by
    intro l hl
    exact absurd hl (List.not_mem_nil l)
  | _ + 1, _, [] => by
    intro l hl
    exact absurd hl (List.not_mem_nil l)
  | fuel + 1, first, c :: cs => by
    intro l hl
    rw [wrapChunksGo_cons] at hl
    by_cases hemp : (dropTrailingWs (lineAssembly width
        (if !first && isWsChunk c then cs else c :: cs)).1).isEmpty
    · rw [if_pos hemp] at hl
      exact wrapChunksGo_width width hw fuel first _ l hl
    · rw [if_neg hemp] at hl
      rcases List.mem_cons.mp hl with rfl | hl2
      · rw [length_flatten_eq]
        exact Nat.le_trans (dropTrailingWs_sum_le _)
          (lineAssembly_sum width hw _)
      · exact wrapChunksGo_width width hw fuel false _ l hl2

theorem wrapChunksGo_nil (width fuel : Nat) (first : Bool) :
    wrapChunksGo width fuel first [] = [] := by
  cases fuel with
  | zero => rfl
  | succ n => rfl

theorem wsFree_take {d : Str} (h : wsFree d) (n : Nat) : wsFree (d.take n) :=
  fun c hc => h c (List.mem_of_mem_take hc)

theorem wsFree_drop {d : Str} (h : wsFree d) (n : Nat) : wsFree (d.drop n) :=
  fun c hc => h c (List.mem_of_mem_drop hc)

theorem lineAssembly_wsFree (width : Nat) {l : List Str}
    (hwf : ∀ x ∈ l, wsFree x) :
    (∀ x ∈ (lineAssembly width l).1, wsFree x) ∧
    (∀ x ∈ (lineAssembly width l).2, wsFree x) := by
  constructor
  · intro x hx
    rcases (lineAssembly_mem width l).1 x hx with h | ⟨d, hd, n, rfl⟩
    · exact hwf x h
    · exact wsFree_take (hwf d hd) n
  · intro x hx
    rcases (lineAssembly_mem width l).2 x hx with h | ⟨d, hd, n, rfl⟩
    · exact hwf x h
    · exact wsFree_drop (hwf d hd) n

theorem flatten_dropTrailingWs_wsFree {l : List Str}
    (h : ∀ x ∈ l, wsFree x) : (dropTrailingWs l).flatten = l.flatten := by
  rcases dropTrailingWs_cases l with heq | ⟨last, hl, hws, heq⟩
  · rw [heq]
  · have hlast : last ∈ l := by
      rw [hl]
      simp
    have hnil : last = [] :=
      eq_nil_of_allWs_wsFree ((isWsChunk_iff last).mp hws) (h last hlast)
    rw [heq]
    conv_rhs => rw [hl]
    rw [hnil, List.flatten_append]
    simp

/-- For whitespace-free chunk lists the wrap loop loses no characters. -/
theorem wrapChunksGo_flatten (width : Nat) (hw : 1 ≤ width) :
    ∀ (fuel : Nat) (first : Bool) (chunks : List Str),
      chunkMu chunks < fuel → (∀ c ∈ chunks, wsFree c) →
      (wrapChunksGo width fuel first chunks).flatten = chunks.flatten
  | 0, _, chunks, hmu, _ => absurd hmu (by omega)
  | fuel + 1, first, [], _, _ => rfl
  | fuel + 1, first, c :: cs, hmu, hwf => by
    rw [wrapChunksGo_cons]
    have key : ∀ chunks2 : List Str,
        chunks2.flatten = (c :: cs).flatten →
        chunkMu chunks2 ≤ chunkMu (c :: cs) →
        (∀ x ∈ chunks2, wsFree x) →
        (if (dropTrailingWs (lineAssembly width chunks2).1).isEmpty then
          wrapChunksGo width fuel first (lineAssembly width chunks2).2
        else (dropTrailingWs (lineAssembly width chunks2).1).flatten ::
          wrapChunksGo width fuel false
            (lineAssembly width chunks2).2).flatten =
        (c :: cs).flatten := by
      intro chunks2 hfl hmu2 hwf2
      cases hch : chunks2 with
      | nil =>
        subst hch
        have h1 : (if (dropTrailingWs (lineAssembly width []).1).isEmpty then
            wrapChunksGo width fuel first (lineAssembly width []).2
          else (dropTrailingWs (lineAssembly width []).1).flatten ::
            wrapChunksGo width fuel false (lineAssembly width []).2) =
            wrapChunksGo width fuel first [] := rfl
        rw [h1, wrapChunksGo_nil]
        exact hfl
      | cons c2 cs2 =>
        rw [← hch]
        have hne2 : chunks2 ≠ [] := by rw [hch]; simp
        have hlaf := lineAssembly_flatten width chunks2
        have hlaw := lineAssembly_wsFree width hwf2
        have hmula := lineAssembly_mu width hw chunks2 hne2
        have hfuel2 : chunkMu (lineAssembly width chunks2).2 < fuel := by
          omega
        have hdf := flatten_dropTrailingWs_wsFree hlaw.1
        by_cases hemp : (dropTrailingWs (lineAssembly width chunks2).1).isEmpty
        · rw [if_pos hemp]
          have h1 : (dropTrailingWs (lineAssembly width chunks2).1).flatten =
              [] := by
            rw [List.isEmpty_iff] at hemp
            rw [hemp]
            rfl
          rw [wrapChunksGo_flatten width hw fuel first _ hfuel2 hlaw.2]
          rw [← hfl, ← hlaf, ← hdf, h1]
          rfl
        · rw [if_neg hemp, List.flatten_cons]
          rw [wrapChunksGo_flatten width hw fuel false _ hfuel2 hlaw.2]
          rw [hdf, hlaf, hfl]
    by_cases hb : (!first && isWsChunk c) = true
    · rw [if_pos hb]
      have hcw : isWsChunk c = true := (Bool.and_eq_true (!first) (isWsChunk c) ▸ hb).2
      have hcnil : c = [] :=
        eq_nil_of_allWs_wsFree ((isWsChunk_iff c).mp hcw)
          (hwf c (List.mem_cons_self c cs))
      refine key cs ?_ ?_ ?_
      · rw [hcnil]
        rfl
      · rw [chunkMu_cons]
        omega
      · exact fun x hx => hwf x (List.mem_cons_of_mem c hx)
    · rw [if_neg hb]
      refine key (c :: cs) rfl (Nat.le_refl _) hwf

/-- When every chunk is a non-empty word and everything fits, the wrap loop
emits exactly one line carrying the whole content. -/
theorem wrapChunksGo_single (width fuel : Nat) (c : Str) (cs : List Str)
    (hwf : ∀ x ∈ c :: cs, wsFree x ∧ x ≠ [])
    (hsum : sumLen (c :: cs) ≤ width) :
    wrapChunksGo width (fuel + 1) true (c :: cs) = [(c :: cs).flatten] := by
  rw [wrapChunksGo_cons]
  have hcond : (if !true && isWsChunk c then cs else c :: cs) = c :: cs := rfl
  rw [hcond]
  have hla : lineAssembly width (c :: cs) = (c :: cs, []) := by
    unfold lineAssembly
    rw [fillLine_all width 0 (c :: cs) (by omega)]
  rw [hla]
  dsimp only
  have hdropT : dropTrailingWs (c :: cs) = c :: cs := by
    rcases dropTrailingWs_cases (c :: cs) with h | ⟨last, hl, hws, h⟩
    · exact h
    · have hlast : last ∈ c :: cs := by
        rw [hl]
        exact List.mem_append_right _ (List.mem_singleton.mpr rfl)
      have := isWsChunk_eq_false (hwf last hlast).2 (hwf last hlast).1
      rw [this] at hws
      exact absurd hws (by simp)
  rw [hdropT]
  rw [if_neg (by simp)]
  rw [wrapChunksGo_nil]

/-! Scanner lemmas. -/

/-- The head element of a string, when present, is whitespace. -/
def headIsWs : Str → Prop
  | [] => True
  | c :: _ => isPySpace c = true

theorem headNotWs_dropWhile (cs : Str) :
    headNotWs (cs.dropWhile isPySpace) := by
  induction cs with
  | nil => trivial
  | cons c cs ih =>
    by_cases h : isPySpace c = true
    · rw [List.dropWhile_cons, if_pos h]
      exact ih
    · rw [List.dropWhile_cons, if_neg h]
      show isPySpace c = false
      exact Bool.not_eq_true _ ▸ (by simpa using h)

theorem headIsWs_dropWhile (cs : Str) :
    headIsWs (cs.dropWhile (fun d => !isPySpace d)) := by
  induction cs with
  | nil => trivial
  | cons c cs ih =>
    by_cases h : isPySpace c = true
    · rw [List.dropWhile_cons, if_neg (by rw [h]; simp)]
      exact h
    · rw [List.dropWhile_cons, if_pos (by
        have : isPySpace c = false := by simpa using h
        rw [this]
        rfl)]
      exact ih

theorem scanWordGo_spec (prev : Str) : ∀ (t acc : Str),
    (scanWordGo prev acc t).1 ++ (scanWordGo prev acc t).2 =
      acc.reverse ++ t ∧
    ((∀ c ∈ acc, isPySpace c = false) → wsFree (scanWordGo prev acc t).1) ∧
    (acc ≠ [] → (scanWordGo prev acc t).1 ≠ [])
  | [], acc => by
    refine ⟨rfl, fun h => ?_, fun h => ?_⟩
    · exact fun c hc => h c (List.mem_reverse.mp hc)
    · show acc.reverse ≠ []
      simpa using h
  | d :: t, acc => by
    have hstep : scanWordGo prev acc (d :: t) =
        if isPySpace d then (acc.reverse, d :: t)
        else if d = '-' && ltHyphLt (acc ++ prev) && ltHyphLt t then
          (('-' :: acc).reverse, t)
        else if headWp (acc ++ prev) && emDashCore (d :: t) then
          (acc.reverse, d :: t)
        else scanWordGo prev (d :: acc) t := rfl
    rw [hstep]
    by_cases h1 : isPySpace d = true
    · rw [if_pos h1]
      refine ⟨rfl, fun h => ?_, fun h => ?_⟩
      · exact fun c hc => h c (List.mem_reverse.mp hc)
      · show acc.reverse ≠ []
        simpa using h
    · rw [if_neg h1]
      have h1f : isPySpace d = false := by simpa using h1
      by_cases h2 : (decide (d = '-') && ltHyphLt (acc ++ prev) &&
          ltHyphLt t) = true
      · rw [if_pos h2]
        have hd : d = '-' := by
          have := (Bool.and_eq_true _ _ ▸ h2).1
          have := (Bool.and_eq_true _ _ ▸ this).1
          exact of_decide_eq_true this
        refine ⟨?_, fun h => ?_, fun h => ?_⟩
        · rw [List.reverse_cons, List.append_assoc, hd]
          rfl
        · intro c hc
          rw [List.mem_reverse] at hc
          rcases List.mem_cons.mp hc with rfl | hc2
          · rw [← hd]
            exact h1f
          · exact h c hc2
        · simp
      · rw [if_neg h2]
        by_cases h3 : (headWp (acc ++ prev) && emDashCore (d :: t)) = true
        · rw [if_pos h3]
          refine ⟨rfl, fun h => ?_, fun h => ?_⟩
          · exact fun c hc => h c (List.mem_reverse.mp hc)
          · show acc.reverse ≠ []
            simpa using h
        · rw [if_neg h3]
          have ih := scanWordGo_spec prev t (d :: acc)
          refine ⟨?_, fun h => ?_, fun _ => ?_⟩
          · rw [ih.1, List.reverse_cons, List.append_assoc]
            rfl
          · refine ih.2.1 (fun c hc => ?_)
            rcases List.mem_cons.mp hc with rfl | hc2
            · exact h1f
            · exact h c hc2
          · exact ih.2.2 (by simp)

theorem scanStep_spec (prev : Str) (c : Char) (cs : Str) :
    ∃ chunk rest, scanStep prev (c :: cs) = some (chunk, rest) ∧
      chunk ++ rest = c :: cs ∧ chunk ≠ [] ∧
      (isPySpace c = true → allWs chunk ∧ headNotWs rest) ∧
      (isPySpace c = false → wsFree chunk) := by
  have hstep : scanStep prev (c :: cs) =
      if isPySpace c then
        some (c :: cs.takeWhile isPySpace, cs.dropWhile isPySpace)
      else if headWp prev && emDashCore (c :: cs) then
        some (c :: cs.takeWhile (fun d => d = '-'),
          cs.dropWhile (fun d => d = '-'))
      else some (scanWordGo prev [c] cs) := rfl
  rw [hstep]
  by_cases h1 : isPySpace c = true
  · rw [if_pos h1]
    refine ⟨_, _, rfl, ?_, by simp, fun _ => ⟨?_, ?_⟩, fun hf => ?_⟩
    · show c :: (cs.takeWhile isPySpace ++ cs.dropWhile isPySpace) = c :: cs
      rw [List.takeWhile_append_dropWhile]
    · intro x hx
      rcases List.mem_cons.mp hx with rfl | hx2
      · exact h1
      · exact List.all_eq_true.mp List.all_takeWhile x hx2
    · exact headNotWs_dropWhile cs
    · rw [h1] at hf
      exact absurd hf (by simp)
  · rw [if_neg h1]
    have h1f : isPySpace c = false := by simpa using h1
    by_cases h2 : (headWp prev && emDashCore (c :: cs)) = true
    · rw [if_pos h2]
      refine ⟨_, _, rfl, ?_, by simp, fun ht => ?_, fun _ => ?_⟩
      · show c :: (cs.takeWhile (fun d => d = '-') ++
          cs.dropWhile (fun d => d = '-')) = c :: cs
        rw [List.takeWhile_append_dropWhile]
      · rw [ht] at h1f
        exact absurd h1f (by simp)
      · intro x hx
        rcases List.mem_cons.mp hx with rfl | hx2
        · exact h1f
        · have := List.all_eq_true.mp List.all_takeWhile x hx2
          have hxh : x = '-' := of_decide_eq_true this
          rw [hxh]
          rfl
    · rw [if_neg h2]
      have hsw := scanWordGo_spec prev cs [c]
      refine ⟨_, _, rfl, ?_, ?_, fun ht => ?_, fun _ => ?_⟩
      · exact hsw.1
      · exact hsw.2.2 (by simp)
      · rw [ht] at h1f
        exact absurd h1f (by simp)
      · refine hsw.2.1 (fun x hx => ?_)
        rcases List.mem_singleton.mp hx with rfl
        exact h1f

theorem scanChunksF_cons (f : Nat) (prev : Str) (c : Char) (cs : Str) :
    scanChunksF (f + 1) prev (c :: cs) =
      match scanStep prev (c :: cs) with
      | none => []
      | some p => p.1 :: scanChunksF f (p.1.reverse ++ prev) p.2 := rfl

/-- The scanner is a partition of its input. -/
theorem scanChunksF_flatten :
    ∀ (f : Nat) (prev s : Str), s.length < f →
      (scanChunksF f prev s).flatten = s
  | 0, _, s, hf => absurd hf (by omega)
  | f + 1, prev, [], _ => rfl
  | f + 1, prev, c :: cs, hf => by
    obtain ⟨chunk, rest, hstep, happ, hne, -, -⟩ := scanStep_spec prev c cs
    rw [scanChunksF_cons, hstep]
    show chunk ++ (scanChunksF f (chunk.reverse ++ prev) rest).flatten =
      c :: cs
    have hlen : rest.length < f := by
      have h1 : chunk.length + rest.length = (c :: cs).length := by
        rw [← happ, List.length_append]
      have h2 : 1 ≤ chunk.length := by
        cases chunk with
        | nil => exact absurd rfl hne
        | cons a as => simp
      simp at h1 hf
      omega
    rw [scanChunksF_flatten f (chunk.reverse ++ prev) rest hlen, happ]

/-- The scanner output is chunky: non-empty homogeneous chunks with no two
consecutive whitespace runs; and it starts with a word chunk whenever the
input starts with a non-whitespace character. -/
theorem scanChunksF_chunky :
    ∀ (f : Nat) (prev s : Str),
      Chunky (scanChunksF f prev s) ∧
      (headNotWs s → headNonWs (scanChunksF f prev s))
  | 0, _, _ => ⟨Chunky.nil, fun _ => trivial⟩
  | f + 1, prev, [] => ⟨Chunky.nil, fun _ => trivial⟩
  | f + 1, prev, c :: cs => by
    obtain ⟨chunk, rest, hstep, happ, hne, hwsc, hwordc⟩ :=
      scanStep_spec prev c cs
    rw [scanChunksF_cons, hstep]
    show Chunky (chunk :: scanChunksF f (chunk.reverse ++ prev) rest) ∧ _
    have ih := scanChunksF_chunky f (chunk.reverse ++ prev) rest
    by_cases h1 : isPySpace c = true
    · obtain ⟨hall, hrest⟩ := hwsc h1
      refine ⟨Chunky.ws hne hall (ih.2 hrest) ih.1, fun hn => ?_⟩
      have hcf : isPySpace c = false := hn
      rw [h1] at hcf
      exact absurd hcf (by simp)
    · have h1f : isPySpace c = false := by simpa using h1
      refine ⟨Chunky.word hne (hwordc h1f) ih.1, fun _ => ?_⟩
      exact ⟨hne, hwordc h1f⟩

theorem emDashCore_false {c : Char} (hc : c ≠ '-') (t : Str) :
    emDashCore (c :: t) = false := by
  cases t with
  | nil => rfl
  | cons b rest =>
    show (decide (c = '-') && decide (b = '-') && _) = false
    rw [decide_eq_false hc]
    rfl

/-- On hyphen-free input the word scan is just the maximal non-whitespace
run. -/
theorem scanWordGo_no_hyphen (prev : Str) :
    ∀ (t acc : Str), '-' ∉ t →
      scanWordGo prev acc t =
        (acc.reverse ++ t.takeWhile (fun d => !isPySpace d),
          t.dropWhile (fun d => !isPySpace d))
  | [], acc, _ => by
    show (acc.reverse, ([] : Str)) = (acc.reverse ++ [], [])
    rw [List.append_nil]
  | d :: t, acc, hnh => by
    have hd : d ≠ '-' := fun h => hnh (h ▸ List.mem_cons_self d t)
    have hnt : '-' ∉ t := fun h => hnh (List.mem_cons_of_mem d h)
    have hstep : scanWordGo prev acc (d :: t) =
        if isPySpace d then (acc.reverse, d :: t)
        else if d = '-' && ltHyphLt (acc ++ prev) && ltHyphLt t then
          (('-' :: acc).reverse, t)
        else if headWp (acc ++ prev) && emDashCore (d :: t) then
          (acc.reverse, d :: t)
        else scanWordGo prev (d :: acc) t := rfl
    rw [hstep]
    by_cases h1 : isPySpace d = true
    · rw [if_pos h1]
      have hpredf : (!isPySpace d) = false := by rw [h1]; rfl
      rw [List.takeWhile_cons, if_neg (by rw [hpredf]; simp),
        List.dropWhile_cons, if_neg (by rw [hpredf]; simp),
        List.append_nil]
    · rw [if_neg h1]
      have h1f : isPySpace d = false := by simpa using h1
      have h2 : (decide (d = '-') && ltHyphLt (acc ++ prev) &&
          ltHyphLt t) = false := by
        rw [decide_eq_false hd]
        rfl
      rw [if_neg (by rw [h2]; simp)]
      have h3 : (headWp (acc ++ prev) && emDashCore (d :: t)) = false := by
        rw [emDashCore_false hd t, Bool.and_false]
      rw [if_neg (by rw [h3]; simp)]
      rw [scanWordGo_no_hyphen prev t (d :: acc) hnt]
      have hpredt : (!isPySpace d) = true := by rw [h1f]; rfl
      rw [List.takeWhile_cons, if_pos hpredt, List.dropWhile_cons,
        if_pos hpredt, List.reverse_cons, List.append_assoc,
        List.singleton_append]

/-- On hyphen-free input the scanner output is strictly alternating. -/
theorem scanChunksF_alt :
    ∀ (f : Nat) (prev s : Str), '-' ∉ s →
      (headNotWs s → Alt false (scanChunksF f prev s)) ∧
      (headIsWs s → Alt true (scanChunksF f prev s))
  | 0, _, _, _ => ⟨fun _ => Alt.nil false, fun _ => Alt.nil true⟩
  | _ + 1, _, [], _ => ⟨fun _ => Alt.nil false, fun _ => Alt.nil true⟩
  | f + 1, prev, c :: cs, hnh => by
    have hcd : c ≠ '-' := fun h => hnh (h ▸ List.mem_cons_self c cs)
    have hncs : '-' ∉ cs := fun h => hnh (List.mem_cons_of_mem c h)
    have hstep0 : scanStep prev (c :: cs) =
        if isPySpace c then
          some (c :: cs.takeWhile isPySpace, cs.dropWhile isPySpace)
        else if headWp prev && emDashCore (c :: cs) then
          some (c :: cs.takeWhile (fun d => d = '-'),
            cs.dropWhile (fun d => d = '-'))
        else some (scanWordGo prev [c] cs) := rfl
    by_cases h1 : isPySpace c = true
    · have hstep : scanStep prev (c :: cs) =
          some (c :: cs.takeWhile isPySpace, cs.dropWhile isPySpace) := by
        rw [hstep0, if_pos h1]
      rw [scanChunksF_cons, hstep]
      have hrnh : '-' ∉ cs.dropWhile isPySpace :=
        fun h => hncs ((List.dropWhile_sublist isPySpace).subset h)
      have ih := scanChunksF_alt f
        ((c :: cs.takeWhile isPySpace).reverse ++ prev)
        (cs.dropWhile isPySpace) hrnh
      constructor
      · intro hn
        have hcf : isPySpace c = false := hn
        rw [h1] at hcf
        exact absurd hcf (by simp)
      · intro _
        refine Alt.ws (by simp) ?_ (ih.1 (headNotWs_dropWhile cs))
        intro x hx
        rcases List.mem_cons.mp hx with rfl | hx2
        · exact h1
        · exact List.all_eq_true.mp List.all_takeWhile x hx2
    · have h1f : isPySpace c = false := by simpa using h1
      have hem : (headWp prev && emDashCore (c :: cs)) = false := by
        rw [emDashCore_false hcd cs, Bool.and_false]
      have hstep : scanStep prev (c :: cs) =
          some (c :: cs.takeWhile (fun d => !isPySpace d),
            cs.dropWhile (fun d => !isPySpace d)) := by
        rw [hstep0, if_neg h1, if_neg (by rw [hem]; simp),
          scanWordGo_no_hyphen prev cs [c] hncs]
        rfl
      rw [scanChunksF_cons, hstep]
      have hrnh : '-' ∉ cs.dropWhile (fun d => !isPySpace d) :=
        fun h => hncs ((List.dropWhile_sublist _).subset h)
      have ih := scanChunksF_alt f
        ((c :: cs.takeWhile (fun d => !isPySpace d)).reverse ++ prev)
        (cs.dropWhile (fun d => !isPySpace d)) hrnh
      constructor
      · intro _
        refine Alt.word (by simp) ?_ (ih.2 (headIsWs_dropWhile cs))
        intro x hx
        rcases List.mem_cons.mp hx with rfl | hx2
        · exact h1f
        · have := List.all_eq_true.mp List.all_takeWhile x hx2
          simpa using this
      · intro hn
        have hct : isPySpace c = true := hn
        rw [hct] at h1f
        exact absurd h1f (by simp)

/-! `strip` and `munge` preserve the word decomposition. -/

theorem pyWordsAux_append_allWs {w : Str} (hw : allWs w) :
    ∀ (t acc : Str), pyWordsAux (t ++ w) acc = pyWordsAux t acc
  | [], acc => by
    show pyWordsAux w acc = emitAcc acc
    exact pyWordsAux_allWs hw acc
  | d :: t, acc => by
    show pyWordsAux (d :: (t ++ w)) acc = _
    by_cases h : isPySpace d = true
    · rw [pyWordsAux_cons_ws h, pyWordsAux_cons_ws h,
        pyWordsAux_append_allWs hw t []]
    · have hf : isPySpace d = false := by simpa using h
      rw [pyWordsAux_cons_word hf, pyWordsAux_cons_word hf,
        pyWordsAux_append_allWs hw t (d :: acc)]

theorem pyWords_pyStrip (s : Str) : pyWords (pyStrip s) = pyWords s := by
  have hT : allWs (s.takeWhile isPySpace) :=
    fun c hc => List.all_eq_true.mp List.all_takeWhile c hc
  have hT2 : allWs ((s.dropWhile isPySpace).reverse.takeWhile
      isPySpace).reverse := by
    intro c hc
    rw [List.mem_reverse] at hc
    exact List.all_eq_true.mp List.all_takeWhile c hc
  have h2 : s.dropWhile isPySpace =
      pyStrip s ++
        ((s.dropWhile isPySpace).reverse.takeWhile isPySpace).reverse := by
    unfold pyStrip
    conv_lhs => rw [← List.reverse_reverse (s.dropWhile isPySpace)]
    conv_lhs =>
      rw [← List.takeWhile_append_dropWhile isPySpace
        (s.dropWhile isPySpace).reverse]
    rw [List.reverse_append]
  have c1 : pyWords s = pyWords (s.dropWhile isPySpace) := by
    conv_lhs => rw [← List.takeWhile_append_dropWhile isPySpace s]
    exact pyWordsAux_allWs_append hT _
  have c2 : pyWords (s.dropWhile isPySpace) = pyWords (pyStrip s) := by
    rw [h2]
    exact pyWordsAux_append_allWs hT2 (pyStrip s) []
  rw [c1, c2]

theorem allWs_replicate (n : Nat) : allWs (List.replicate n ' ') := by
  intro c hc
  rw [List.eq_of_mem_replicate hc]
  rfl

theorem expandTabsGo_cons (col : Nat) (c : Char) (cs : Str) :
    expandTabsGo 8 col (c :: cs) =
      if c = '\t' then
        List.replicate (8 - col % 8) ' ' ++
          expandTabsGo 8 (col + (8 - col % 8)) cs
      else if c = '\n' || c = '\r' then c :: expandTabsGo 8 0 cs
      else c :: expandTabsGo 8 (col + 1) cs := rfl

theorem pyWordsAux_cons_any (c : Char) (cs t acc : Str)
    (hws : ∀ acc2, pyWordsAux cs acc2 = pyWordsAux t acc2) :
    pyWordsAux (c :: cs) acc = pyWordsAux (c :: t) acc := by
  by_cases hc : isPySpace c = true
  · rw [pyWordsAux_cons_ws hc, pyWordsAux_cons_ws hc, hws []]
  · have hf : isPySpace c = false := by simpa using hc
    rw [pyWordsAux_cons_word hf, pyWordsAux_cons_word hf, hws (c :: acc)]

theorem pyWordsAux_expandTabsGo :
    ∀ (s : Str) (col : Nat) (acc : Str),
      pyWordsAux (expandTabsGo 8 col s) acc = pyWordsAux s acc
  | [], _, _ => rfl
  | c :: cs, col, acc => by
    rw [expandTabsGo_cons]
    by_cases ht : c = '\t'
    · rw [if_pos ht]
      have hn : 1 ≤ 8 - col % 8 := by
        have : col % 8 < 8 := Nat.mod_lt col (by omega)
        omega
      have hne : List.replicate (8 - col % 8) ' ' ≠ [] := by
        intro h
        rw [List.replicate_eq_nil_iff] at h
        omega
      rw [pyWordsAux_ws_append (allWs_replicate _) hne acc _]
      rw [pyWordsAux_expandTabsGo cs (col + (8 - col % 8)) []]
      have hcw : isPySpace c = true := by rw [ht]; rfl
      rw [pyWordsAux_cons_ws hcw]
    · rw [if_neg ht]
      by_cases hnr : (c = '\n' || c = '\r') = true
      · rw [if_pos hnr]
        exact pyWordsAux_cons_any c _ cs acc
          (fun acc2 => pyWordsAux_expandTabsGo cs 0 acc2)
      · rw [if_neg hnr]
        exact pyWordsAux_cons_any c _ cs acc
          (fun acc2 => pyWordsAux_expandTabsGo cs (col + 1) acc2)

theorem pyWordsAux_mungeMap :
    ∀ (s acc : Str),
      pyWordsAux (s.map (fun c => if isPySpace c then ' ' else c)) acc =
        pyWordsAux s acc
  | [], _ => rfl
  | c :: cs, acc => by
    rw [List.map_cons]
    by_cases hc : isPySpace c = true
    · rw [if_pos hc]
      have hsp : isPySpace ' ' = true := rfl
      rw [pyWordsAux_cons_ws hsp, pyWordsAux_cons_ws hc,
        pyWordsAux_mungeMap cs []]
    · have hf : isPySpace c = false := by simpa using hc
      rw [if_neg hc, pyWordsAux_cons_word hf, pyWordsAux_cons_word hf,
        pyWordsAux_mungeMap cs (c :: acc)]

theorem pyWords_munge (s : Str) : pyWords (munge s) = pyWords s := by
  unfold munge pyWords
  rw [pyWordsAux_mungeMap, pyWordsAux_expandTabsGo]

theorem expandTabsGo_mem :
    ∀ (s : Str) (col : Nat), ∀ c ∈ expandTabsGo 8 col s, c ∈ s ∨ c = ' '
  | [], _, c, hc => absurd hc (List.not_mem_nil c)
  | a :: as, col, c, hc => by
    rw [expandTabsGo_cons] at hc
    by_cases ht : a = '\t'
    · rw [if_pos ht] at hc
      rcases List.mem_append.mp hc with h | h
      · exact Or.inr (List.eq_of_mem_replicate h)
      · rcases expandTabsGo_mem as _ c h with h2 | h2
        · exact Or.inl (List.mem_cons_of_mem a h2)
        · exact Or.inr h2
    · rw [if_neg ht] at hc
      by_cases hnr : (a = '\n' || a = '\r') = true
      · rw [if_pos hnr] at hc
        rcases List.mem_cons.mp hc with rfl | h
        · exact Or.inl (List.mem_cons_self c as)
        · rcases expandTabsGo_mem as 0 c h with h2 | h2
          · exact Or.inl (List.mem_cons_of_mem a h2)
          · exact Or.inr h2
      · rw [if_neg hnr] at hc
        rcases List.mem_cons.mp hc with rfl | h
        · exact Or.inl (List.mem_cons_self c as)
        · rcases expandTabsGo_mem as (col + 1) c h with h2 | h2
          · exact Or.inl (List.mem_cons_of_mem a h2)
          · exact Or.inr h2

theorem munge_no_hyphen {s : Str} (h : '-' ∉ s) : '-' ∉ munge s := by
  intro hm
  unfold munge at hm
  rcases List.mem_map.mp hm with ⟨a, ha, hfa⟩
  rcases expandTabsGo_mem s 0 a ha with h2 | h2
  · by_cases hws : isPySpace a = true
    · rw [if_pos hws] at hfa
      exact absurd hfa.symm (by decide)
    · rw [if_neg hws] at hfa
      rw [hfa] at h2
      exact h h2
  · rw [h2] at hfa
    have : ('-' : Char) = ' ' := by
      rw [← hfa]
      rfl
    exact absurd this (by decide)

theorem expandTabsGo_eq_self :
    ∀ (s : Str) (col : Nat), (∀ c ∈ s, c ≠ '\t') →
      expandTabsGo 8 col s = s
  | [], _, _ => rfl
  | a :: as, col, h => by
    rw [expandTabsGo_cons,
      if_neg (h a (List.mem_cons_self a as))]
    have ih0 := expandTabsGo_eq_self as 0
      (fun c hc => h c (List.mem_cons_of_mem a hc))
    have ih1 := expandTabsGo_eq_self as (col + 1)
      (fun c hc => h c (List.mem_cons_of_mem a hc))
    by_cases hnr : (a = '\n' || a = '\r') = true
    · rw [if_pos hnr, ih0]
    · rw [if_neg hnr, ih1]

theorem munge_eq_self {s : Str} (h : wsFree s) : munge s = s := by
  unfold munge
  have htab : ∀ c ∈ s, c ≠ '\t' := by
    intro c hc he
    have := h c hc
    rw [he] at this
    exact absurd this (by decide)
  rw [expandTabsGo_eq_self s 0 htab]
  have : ∀ c ∈ s, (if isPySpace c then ' ' else c) = c := by
    intro c hc
    rw [if_neg (by rw [h c hc]; simp)]
  rw [List.map_congr_left this, List.map_id']

theorem headNotWs_pyStrip (s : Str) : headNotWs (pyStrip s) := by
  cases hps : pyStrip s with
  | nil => trivial
  | cons c rest =>
    have h2 : s.dropWhile isPySpace =
        pyStrip s ++
          ((s.dropWhile isPySpace).reverse.takeWhile isPySpace).reverse := by
      unfold pyStrip
      conv_lhs => rw [← List.reverse_reverse (s.dropWhile isPySpace)]
      conv_lhs =>
        rw [← List.takeWhile_append_dropWhile isPySpace
          (s.dropWhile isPySpace).reverse]
      rw [List.reverse_append]
    rw [hps] at h2
    have hh := headNotWs_dropWhile s
    rw [h2] at hh
    exact hh

theorem headNotWs_munge {s : Str} (h : headNotWs s) : headNotWs (munge s) := by
  cases s with
  | nil => trivial
  | cons c cs =>
    have hcf : isPySpace c = false := h
    have hct : c ≠ '\t' := by
      intro he
      rw [he] at hcf
      exact absurd hcf (by decide)
    have hcnr : (c = '\n' || c = '\r') = false := by
      by_cases hn : c = '\n'
      · rw [hn] at hcf
        exact absurd hcf (by decide)
      · by_cases hr : c = '\r'
        · rw [hr] at hcf
          exact absurd hcf (by decide)
        · rw [decide_eq_false hn, decide_eq_false hr]
          rfl
    unfold munge
    rw [expandTabsGo_cons, if_neg hct, if_neg (by rw [hcnr]; simp),
      List.map_cons, if_neg (by rw [hcf]; simp)]
    exact hcf

/-! Alternation bookkeeping for the wrap loop. -/

theorem alt_false_cons {c : Str} {l : List Str} (h : Alt false (c :: l)) :
    (c ≠ [] ∧ wsFree c) ∧ Alt true l := by
  cases h with
  | word hne hw h2 => exact ⟨⟨hne, hw⟩, h2⟩

theorem alt_true_cons {c : Str} {l : List Str} (h : Alt true (c :: l)) :
    (c ≠ [] ∧ allWs c) ∧ Alt false l := by
  cases h with
  | ws hne hw h2 => exact ⟨⟨hne, hw⟩, h2⟩

theorem alt_of_append_left :
    ∀ (xs : List Str) (b : Bool) (ys : List Str),
      Alt b (xs ++ ys) → Alt b xs
  | [], b, _, _ => Alt.nil b
  | x :: xs, b, ys, h => by
    cases b with
    | false =>
      obtain ⟨⟨hne, hw⟩, h2⟩ := alt_false_cons h
      exact Alt.word hne hw (alt_of_append_left xs true ys h2)
    | true =>
      obtain ⟨⟨hne, hw⟩, h2⟩ := alt_true_cons h
      exact Alt.ws hne hw (alt_of_append_left xs false ys h2)

theorem alt_of_append_right :
    ∀ (xs : List Str) (b : Bool) (ys : List Str),
      Alt b (xs ++ ys) → ∃ b2, Alt b2 ys
  | [], b, _, h => ⟨b, h⟩
  | x :: xs, b, ys, h => by
    cases b with
    | false => exact alt_of_append_right xs true ys (alt_false_cons h).2
    | true => exact alt_of_append_right xs false ys (alt_true_cons h).2

theorem alt_dropTrailingWs {l : List Str} (h : Alt false l) :
    Alt false (dropTrailingWs l) := by
  rcases dropTrailingWs_cases l with heq | ⟨last, hl, hws, heq⟩
  · rw [heq]
    exact h
  · rw [heq]
    rw [hl] at h
    exact alt_of_append_left l.dropLast false [last] h

theorem wordChunks_cons_ws {c : Str} (hc : isWsChunk c = true)
    (l : List Str) : wordChunks (c :: l) = wordChunks l := by
  unfold wordChunks
  rw [List.filter_cons, if_neg (by rw [hc]; simp)]

theorem wordChunks_cons_word {c : Str} (hc : isWsChunk c = false)
    (l : List Str) : wordChunks (c :: l) = c :: wordChunks l := by
  unfold wordChunks
  rw [List.filter_cons, if_pos (by rw [hc]; rfl)]

theorem wordChunks_dropTrailingWs (l : List Str) :
    wordChunks (dropTrailingWs l) = wordChunks l := by
  rcases dropTrailingWs_cases l with heq | ⟨last, hl, hws, heq⟩
  · rw [heq]
  · rw [heq]
    conv_rhs => rw [hl]
    rw [wordChunks_append]
    have : wordChunks [last] = [] := by
      unfold wordChunks
      rw [List.filter_cons, if_neg (by rw [hws]; simp)]
      rfl
    rw [this, List.append_nil]

theorem dropTrailingWs_ne_nil {x : Str} {xs : List Str}
    (hx : isWsChunk x = false) : dropTrailingWs (x :: xs) ≠ [] := by
  rcases dropTrailingWs_cases (x :: xs) with heq | ⟨last, hl, hws, heq⟩
  · rw [heq]
    simp
  · rw [heq]
    intro hnil
    have hxl : x :: xs = [last] := by
      conv_lhs => rw [hl]
      rw [hnil]
      rfl
    have : x = last := (List.cons.injEq _ _ _ _ ▸ hxl).1
    rw [← this] at hws
    rw [hx] at hws
    exact absurd hws (by simp)

theorem dropTrailingWs_concat_ws {X : List Str} {y : Str}
    (hy : isWsChunk y = true) : dropTrailingWs (X ++ [y]) = X := by
  unfold dropTrailingWs
  rw [List.getLast?_concat]
  show (if isWsChunk y = true then (X ++ [y]).dropLast else X ++ [y]) = X
  rw [if_pos hy, List.dropLast_concat]

theorem pyWords_flatten_false {l : List Str} (h : Alt false l) :
    pyWords l.flatten = wordChunks l :=
  (pyWords_flatten_alt l.length (Nat.le_refl _) h).1 rfl

theorem allWs_take {d : Str} (h : allWs d) (n : Nat) : allWs (d.take n) :=
  fun c hc => h c (List.mem_of_mem_take hc)

theorem allWs_drop {d : Str} (h : allWs d) (n : Nat) : allWs (d.drop n) :=
  fun c hc => h c (List.mem_of_mem_drop hc)

/-- Central preservation theorem: on a strictly alternating chunk list whose
word chunks all fit in the width, the wrap loop never breaks a word: the
concatenation of the per-line word decompositions is exactly the word-chunk
list of the input. -/
theorem wrapChunksGo_words (width : Nat) (hw : 1 ≤ width) :
    ∀ (fuel : Nat) (first b : Bool) (chunks : List Str),
      chunkMu chunks < fuel → Alt b chunks →
      (first = true → b = false) →
      (∀ c ∈ chunks, wsFree c → c.length ≤ width) →
      ((wrapChunksGo width fuel first chunks).map pyWords).flatten =
        wordChunks chunks
  | 0, _, _, chunks, hmu, _, _, _ => absurd hmu (by omega)
  | _ + 1, _, _, [], _, _, _, _ => rfl
  | fuel + 1, first, b, c :: cs, hmu, halt, hfb, hbound => by
    rw [wrapChunksGo_cons]
    have key : ∀ chunks2 : List Str, Alt false chunks2 →
        chunkMu chunks2 ≤ chunkMu (c :: cs) →
        (∀ x ∈ chunks2, wsFree x → x.length ≤ width) →
        ((if (dropTrailingWs (lineAssembly width chunks2).1).isEmpty then
            wrapChunksGo width fuel first (lineAssembly width chunks2).2
          else (dropTrailingWs (lineAssembly width chunks2).1).flatten ::
            wrapChunksGo width fuel false
              (lineAssembly width chunks2).2).map pyWords).flatten =
        wordChunks chunks2 := by
      intro chunks2 halt2 hmu2 hbound2
      cases hch : chunks2 with
      | nil =>
        subst hch
        have h1 : (if (dropTrailingWs (lineAssembly width []).1).isEmpty then
            wrapChunksGo width fuel first (lineAssembly width []).2
          else (dropTrailingWs (lineAssembly width []).1).flatten ::
            wrapChunksGo width fuel false (lineAssembly width []).2) =
            wrapChunksGo width fuel first [] := rfl
        rw [h1, wrapChunksGo_nil]
        rfl
      | cons d ds =>
        subst hch
        obtain ⟨⟨hdne, hdw⟩, haltds⟩ := alt_false_cons halt2
        have hdfit : d.length ≤ width :=
          hbound2 d (List.mem_cons_self d ds) hdw
        have hwChunkd : isWsChunk d = false := isWsChunk_eq_false hdne hdw
        have hmurest : chunkMu (lineAssembly width (d :: ds)).2 < fuel := by
          have h1 := lineAssembly_mu width hw (d :: ds) (by simp)
          have h2 : chunkMu (c :: cs) < fuel + 1 := hmu
      -- NOTE placeholder
          omega
        rcases lineAssembly_spec width (d :: ds) with
          ⟨taken, hf, hla⟩ | ⟨taken, e1, es, hf, hlong, hla⟩ |
          ⟨taken, e1, es, hf, hlong, hla⟩
        · -- (A) everything fitted on one line
          have happ := fillLine_append width 0 (d :: ds)
          rw [hf] at happ
          have htk : taken = d :: ds := by simpa using happ
          subst htk
          rw [hla]
          dsimp only
          have hcl := @dropTrailingWs_ne_nil d ds hwChunkd
          rw [if_neg (by simpa [List.isEmpty_iff] using hcl)]
          rw [List.map_cons, List.flatten_cons, wrapChunksGo_nil]
          rw [pyWords_flatten_false (alt_dropTrailingWs halt2),
            wordChunks_dropTrailingWs]
          simp
        · -- (B) the next chunk fits the width but not the current line
          have happ := fillLine_append width 0 (d :: ds)
          rw [hf] at happ
          dsimp only at happ
          have htne : taken ≠ [] := by
            intro h
            have hproj : (fillLine width 0 (d :: ds)).1 = [] := by
              rw [hf, h]
            have := fillLine_nil_no_fit width 0 d ds hproj
            omega
          obtain ⟨dtk, hts⟩ : ∃ tk, taken = d :: tk := by
            cases taken with
            | nil => exact absurd rfl htne
            | cons t0 tk =>
              rw [List.cons_append] at happ
              injection happ with h1 h2
              exact ⟨tk, by rw [h1]⟩
          rw [← happ] at halt2
          have haltTaken : Alt false taken :=
            alt_of_append_left taken false (e1 :: es) halt2
          obtain ⟨b2, haltRest⟩ :=
            alt_of_append_right taken false (e1 :: es) halt2
          rw [hla]
          dsimp only
          have hcl : dropTrailingWs taken ≠ [] := by
            rw [hts]
            exact @dropTrailingWs_ne_nil d dtk hwChunkd
          rw [if_neg (by simpa [List.isEmpty_iff] using hcl)]
          rw [List.map_cons, List.flatten_cons]
          rw [pyWords_flatten_false (alt_dropTrailingWs haltTaken),
            wordChunks_dropTrailingWs]
          rw [wrapChunksGo_words width hw fuel false b2 (e1 :: es)
            (by rw [hla] at hmurest; exact hmurest) haltRest
            (by intro h; exact absurd h (by simp))
            (fun x hx hwf => hbound2 x
              (by rw [← happ]; exact List.mem_append_right _ hx) hwf)]
          rw [← wordChunks_append, happ]
        · -- (C) overlong chunk: it must be a whitespace run, which is sliced
          have happ := fillLine_append width 0 (d :: ds)
          rw [hf] at happ
          dsimp only at happ
          have htne : taken ≠ [] := by
            intro h
            have hproj : (fillLine width 0 (d :: ds)).1 = [] := by
              rw [hf, h]
            have := fillLine_nil_no_fit width 0 d ds hproj
            omega
          obtain ⟨dtk, hts⟩ : ∃ tk, taken = d :: tk := by
            cases taken with
            | nil => exact absurd rfl htne
            | cons t0 tk =>
              rw [List.cons_append] at happ
              injection happ with h1 h2
              exact ⟨tk, by rw [h1]⟩
          rw [← happ] at halt2
          have haltTaken : Alt false taken :=
            alt_of_append_left taken false (e1 :: es) halt2
          obtain ⟨b2, haltRest⟩ :=
            alt_of_append_right taken false (e1 :: es) halt2
          have he1mem : e1 ∈ d :: ds := by
            rw [← happ]
            exact List.mem_append_right _ (List.mem_cons_self e1 es)
          have he1 : (e1 ≠ [] ∧ allWs e1) ∧ Alt false es := by
            cases b2 with
            | true => exact ⟨(alt_true_cons haltRest).1,
                (alt_true_cons haltRest).2⟩
            | false =>
              obtain ⟨⟨hne1, hw1⟩, -⟩ := alt_false_cons haltRest
              have := hbound2 e1 he1mem hw1
              omega
          rw [hla]
          dsimp only
          have hkle : longWordEnd e1
              (if width < 1 then 1 else width - sumLen taken) ≤
              if width < 1 then 1 else width - sumLen taken :=
            longWordEnd_le e1 _
          have hklt : longWordEnd e1
              (if width < 1 then 1 else width - sumLen taken) < e1.length := by
            rw [if_neg (by omega)] at hkle ⊢
            omega
          have hslicews : isWsChunk (e1.take (longWordEnd e1
              (if width < 1 then 1 else width - sumLen taken))) = true :=
            (isWsChunk_iff _).mpr (allWs_take he1.1.2 _)
          rw [dropTrailingWs_concat_ws hslicews]
          have hclne : taken.isEmpty = false := by
            rw [hts]
            rfl
          rw [if_neg (by rw [hclne]; simp)]
          rw [List.map_cons, List.flatten_cons]
          rw [pyWords_flatten_false haltTaken]
          have hdropne : e1.drop (longWordEnd e1
              (if width < 1 then 1 else width - sumLen taken)) ≠ [] := by
            intro h
            have h2 := congrArg List.length h
            rw [List.length_drop, List.length_nil] at h2
            omega
          have haltDrop : Alt true (e1.drop (longWordEnd e1
              (if width < 1 then 1 else width - sumLen taken)) :: es) :=
            Alt.ws hdropne (allWs_drop he1.1.2 _) he1.2
          rw [wrapChunksGo_words width hw fuel false true _
            (by rw [hla] at hmurest; exact hmurest) haltDrop
            (by intro h; exact absurd h (by simp))
            ?boundrec]
          case boundrec =>
            intro x hx hwf
            rcases List.mem_cons.mp hx with heq | hx2
            · exact absurd (eq_nil_of_allWs_wsFree (allWs_drop he1.1.2 _)
                (heq ▸ hwf)) hdropne
            · refine hbound2 x ?_ hwf
              rw [← happ]
              exact List.mem_append_right _ (List.mem_cons_of_mem e1 hx2)
          rw [wordChunks_cons_ws ((isWsChunk_iff _).mpr
            (allWs_drop he1.1.2 _))]
          rw [← happ, wordChunks_append,
            wordChunks_cons_ws ((isWsChunk_iff e1).mpr he1.1.2)]
    by_cases hb : (!first && isWsChunk c) = true
    · rw [if_pos hb]
      have hcw : isWsChunk c = true := (Bool.and_eq_true _ _ ▸ hb).2
      have hbtrue : b = true := by
        cases b with
        | true => rfl
        | false =>
          obtain ⟨⟨hne, hwf⟩, -⟩ := alt_false_cons halt
          rw [isWsChunk_eq_false hne hwf] at hcw
          exact absurd hcw (by simp)
      subst hbtrue
      obtain ⟨⟨hne, hwc⟩, haltcs⟩ := alt_true_cons halt
      rw [key cs haltcs (by rw [chunkMu_cons]; omega)
        (fun x hx hwf => hbound x (List.mem_cons_of_mem c hx) hwf)]
      rw [wordChunks_cons_ws hcw]
    · rw [if_neg hb]
      have hbfalse : b = false := by
        cases b with
        | false => rfl
        | true =>
          obtain ⟨⟨hne, hwc⟩, -⟩ := alt_true_cons halt
          have hcw : isWsChunk c = true := (isWsChunk_iff c).mpr hwc
          have hfirst : first = true := by
            cases first with
            | true => rfl
            | false =>
              rw [hcw] at hb
              simp at hb
          have := hfb hfirst
          exact absurd this (by simp)
      subst hbfalse
      exact key (c :: cs) halt (Nat.le_refl _) hbound

/-! Leading-whitespace analysis of the emitted lines. -/

theorem chunky_tail {c : Str} {l : List Str} (h : Chunky (c :: l)) :
    Chunky l := by
  cases h with
  | word _ _ h2 => exact h2
  | ws _ _ _ h2 => exact h2

theorem chunky_suffix :
    ∀ (xs ys : List Str), Chunky (xs ++ ys) → Chunky ys
  | [], _, h => h
  | _ :: xs, ys, h => chunky_suffix xs ys (chunky_tail h)

theorem dropTrailingWs_head (x : Str) (xs : List Str) :
    dropTrailingWs (x :: xs) = [] ∨
      ∃ ys, dropTrailingWs (x :: xs) = x :: ys := by
  rcases dropTrailingWs_cases (x :: xs) with heq | ⟨last, hl, hws, heq⟩
  · exact Or.inr ⟨xs, heq⟩
  · cases xs with
    | nil =>
      left
      rw [heq]
      rfl
    | cons y t =>
      right
      rw [heq]
      exact ⟨(y :: t).dropLast, rfl⟩

theorem headNotWs_flatten_cons {d : Str} (ys : List Str) (hne : d ≠ [])
    (hwf : wsFree d) : headNotWs ((d :: ys).flatten) := by
  rw [List.flatten_cons]
  cases d with
  | nil => exact absurd rfl hne
  | cons c0 d2 =>
    show headNotWs (c0 :: (d2 ++ ys.flatten))
    exact hwf c0 (List.mem_cons_self c0 d2)

theorem headNotWs_flatten_dropTrailing {x : Str} {xs : List Str}
    (hne : x ≠ []) (hwf : wsFree x) :
    headNotWs ((dropTrailingWs (x :: xs)).flatten) := by
  rcases dropTrailingWs_head x xs with h | ⟨ys, h⟩
  · rw [h]
    trivial
  · rw [h]
    exact headNotWs_flatten_cons ys hne hwf

theorem chunky_drop_head {e : Str} {es : List Str} (h : Chunky (e :: es))
    {e2 : Str} (hne : e2 ≠ []) (hsub : ∀ c ∈ e2, c ∈ e) :
    Chunky (e2 :: es) := by
  cases h with
  | word hne0 hw h2 =>
    exact Chunky.word hne (fun c hc => hw c (hsub c hc)) h2
  | ws hne0 hw hh h2 =>
    exact Chunky.ws hne (fun c hc => hw c (hsub c hc)) hh h2

/-- No emitted line starts with whitespace, provided the chunk list is
chunky and, while no line has been emitted yet, starts with a word chunk. -/
theorem wrapChunksGo_lines (width : Nat) (hw : 1 ≤ width) :
    ∀ (fuel : Nat) (first : Bool) (chunks : List Str),
      Chunky chunks → (first = true → headNonWs chunks) →
      ∀ l ∈ wrapChunksGo width fuel first chunks, headNotWs l
  | 0, _, _, _, _ => by
    intro l hl
    exact absurd hl (List.not_mem_nil l)
  | _ + 1, _, [], _, _ => by
    intro l hl
    exact absurd hl (List.not_mem_nil l)
  | fuel + 1, first, c :: cs, hch, hfh => by
    intro l hl
    rw [wrapChunksGo_cons] at hl
    have key : ∀ chunks2 : List Str, Chunky chunks2 → headNonWs chunks2 →
        l ∈ (if (dropTrailingWs (lineAssembly width chunks2).1).isEmpty then
            wrapChunksGo width fuel first (lineAssembly width chunks2).2
          else (dropTrailingWs (lineAssembly width chunks2).1).flatten ::
            wrapChunksGo width fuel false (lineAssembly width chunks2).2) →
        headNotWs l := by
      intro chunks2 hch2 hh2 hl2
      cases hc2 : chunks2 with
      | nil =>
        subst hc2
        have h1 : (if (dropTrailingWs (lineAssembly width []).1).isEmpty then
            wrapChunksGo width fuel first (lineAssembly width []).2
          else (dropTrailingWs (lineAssembly width []).1).flatten ::
            wrapChunksGo width fuel false (lineAssembly width []).2) =
            wrapChunksGo width fuel first [] := rfl
        rw [h1, wrapChunksGo_nil] at hl2
        exact absurd hl2 (List.not_mem_nil l)
      | cons d ds =>
        subst hc2
        obtain ⟨hdne, hdw⟩ : d ≠ [] ∧ wsFree d := hh2
        have hwChunkd : isWsChunk d = false := isWsChunk_eq_false hdne hdw
        -- identify the head of the assembled line and the structure of rest
        have hshape : (∃ y ys, (lineAssembly width (d :: ds)).1 = y :: ys ∧
            y ≠ [] ∧ wsFree y) ∧ Chunky (lineAssembly width (d :: ds)).2 := by
          rcases lineAssembly_spec width (d :: ds) with
            ⟨taken, hf, hla⟩ | ⟨taken, e1, es, hf, hlong, hla⟩ |
            ⟨taken, e1, es, hf, hlong, hla⟩
          · have happ := fillLine_append width 0 (d :: ds)
            rw [hf] at happ
            have htk : taken = d :: ds := by simpa using happ
            subst htk
            rw [hla]
            exact ⟨⟨d, ds, rfl, hdne, hdw⟩, Chunky.nil⟩
          · have happ := fillLine_append width 0 (d :: ds)
            rw [hf] at happ
            dsimp only at happ
            have htne : taken ≠ [] := by
              intro h
              subst h
              have hl2 : e1 :: es = d :: ds := happ
              injection hl2 with he1 hes
              have hproj : (fillLine width 0 (d :: ds)).1 = [] := by
                rw [hf]
              have hnofit := fillLine_nil_no_fit width 0 d ds hproj
              rw [he1] at hlong
              omega
            obtain ⟨tk, hts⟩ : ∃ tk, taken = d :: tk := by
              cases taken with
              | nil => exact absurd rfl htne
              | cons t0 tk =>
                rw [List.cons_append] at happ
                injection happ with h1 h2
                exact ⟨tk, by rw [h1]⟩
            rw [hla, hts]
            refine ⟨⟨d, tk, rfl, hdne, hdw⟩, ?_⟩
            have : Chunky (taken ++ e1 :: es) := by
              rw [happ]
              exact hch2
            exact chunky_suffix taken (e1 :: es) this
          · have happ := fillLine_append width 0 (d :: ds)
            rw [hf] at happ
            dsimp only at happ
            have hchRest : Chunky (e1 :: es) := by
              have : Chunky (taken ++ e1 :: es) := by
                rw [happ]
                exact hch2
              exact chunky_suffix taken (e1 :: es) this
            have hkle := longWordEnd_le e1
              (if width < 1 then 1 else width - sumLen taken)
            have hsple : (if width < 1 then 1 else width - sumLen taken) ≤
                width := by
              rw [if_neg (by omega)]
              omega
            have hklt : longWordEnd e1
                (if width < 1 then 1 else width - sumLen taken) <
                e1.length := by
              omega
            have hdropne : e1.drop (longWordEnd e1
                (if width < 1 then 1 else width - sumLen taken)) ≠ [] := by
              intro h
              have h2 := congrArg List.length h
              rw [List.length_drop, List.length_nil] at h2
              omega
            have hchDrop : Chunky (e1.drop (longWordEnd e1
                (if width < 1 then 1 else width - sumLen taken)) :: es) :=
              chunky_drop_head hchRest hdropne
                (fun x hx => List.mem_of_mem_drop hx)
            cases htk : taken with
            | nil =>
              subst htk
              have he1d : e1 = d ∧ es = ds := by
                have : ([] : List Str) ++ e1 :: es = d :: ds := happ
                injection this with h1 h2
                exact ⟨h1, h2⟩
              have hkpos : 1 ≤ longWordEnd e1
                  (if width < 1 then 1 else width - sumLen []) := by
                refine longWordEnd_pos e1 _ ?_
                rw [if_neg (by omega)]
                show 1 ≤ width - sumLen []
                rw [sumLen_nil]
                omega
              rw [hla]
              refine ⟨⟨e1.take (longWordEnd e1
                (if width < 1 then 1 else width - sumLen [])), [], rfl,
                ?_, ?_⟩, hchDrop⟩
              · intro h
                have h2 := congrArg List.length h
                rw [List.length_take, List.length_nil] at h2
                have hd1 : 0 < e1.length := List.length_pos.mpr (by
                  rw [he1d.1]
                  exact hdne)
                omega
              · rw [he1d.1]
                exact wsFree_take hdw _
            | cons t0 tk =>
              subst htk
              rw [List.cons_append] at happ
              injection happ with h1 h2
              subst h1
              rw [hla]
              rw [List.cons_append]
              exact ⟨⟨t0, tk ++ [e1.take _], rfl, hdne, hdw⟩, hchDrop⟩
        obtain ⟨⟨y, ys, hy, hyne, hyw⟩, hchrest⟩ := hshape
        have hclne : dropTrailingWs (lineAssembly width (d :: ds)).1 ≠ [] := by
          rw [hy]
          exact @dropTrailingWs_ne_nil y ys (isWsChunk_eq_false hyne hyw)
        rw [if_neg (by simpa [List.isEmpty_iff] using hclne)] at hl2
        rcases List.mem_cons.mp hl2 with rfl | hl3
        · rw [hy]
          exact headNotWs_flatten_dropTrailing hyne hyw
        · exact wrapChunksGo_lines width hw fuel false _ hchrest
            (by intro h; exact absurd h (by simp)) l hl3
    by_cases hb : (!first && isWsChunk c) = true
    · rw [if_pos hb] at hl
      have hcw : isWsChunk c = true := (Bool.and_eq_true _ _ ▸ hb).2
      cases hch with
      | word hne hwf h2 =>
        rw [isWsChunk_eq_false hne hwf] at hcw
        exact absurd hcw (by simp)
      | ws hne hwc hh h2 =>
        exact key cs h2 hh hl
    · rw [if_neg hb] at hl
      have hhead : headNonWs (c :: cs) := by
        cases first with
        | true => exact hfh rfl
        | false =>
          cases hch with
          | word hne hwf h2 => exact ⟨hne, hwf⟩
          | ws hne hwc hh h2 =>
            have hcw : isWsChunk c = true := (isWsChunk_iff c).mpr hwc
            rw [hcw] at hb
            simp at hb
      exact key (c :: cs) hch hhead hl

/-! Splitting on newlines: basic facts about `splitOnChar`. -/

theorem splitOnChar_cons (sep c : Char) (cs : Str) :
    splitOnChar sep (c :: cs) =
      match splitOnChar sep cs with
      | [] => [[]]
      | h :: t => if c = sep then [] :: h :: t else (c :: h) :: t := rfl

theorem splitOnChar_ne_nil (sep : Char) : ∀ s : Str, splitOnChar sep s ≠ []
  | [] => by simp [splitOnChar]
  | c :: cs => by
    rw [splitOnChar_cons]
    cases hsp : splitOnChar sep cs with
    | nil => simp
    | cons h t =>
      dsimp only
      by_cases hc : c = sep
      · rw [if_pos hc]
        simp
      · rw [if_neg hc]
        simp

theorem splitOnChar_no_sep (sep : Char) :
    ∀ {s : Str}, sep ∉ s → splitOnChar sep s = [s]
  | [], _ => rfl
  | c :: cs, h => by
    have hc : c ≠ sep := fun he => h (he ▸ List.mem_cons_self c cs)
    have hcs : sep ∉ cs := fun he => h (List.mem_cons_of_mem c he)
    rw [splitOnChar_cons, splitOnChar_no_sep sep hcs]
    dsimp only
    rw [if_neg hc]

theorem splitOnChar_append (sep : Char) :
    ∀ {a : Str} (r : Str), sep ∉ a →
      splitOnChar sep (a ++ sep :: r) = a :: splitOnChar sep r
  | [], r, _ => by
    rw [List.nil_append, splitOnChar_cons]
    cases hsp : splitOnChar sep r with
    | nil => exact absurd hsp (splitOnChar_ne_nil sep r)
    | cons h t =>
      dsimp only
      rw [if_pos rfl]
  | x :: a2, r, h => by
    have hx : x ≠ sep := fun he => h (he ▸ List.mem_cons_self x a2)
    have ha2 : sep ∉ a2 := fun he => h (List.mem_cons_of_mem x he)
    rw [List.cons_append, splitOnChar_cons, splitOnChar_append sep r ha2]
    dsimp only
    rw [if_neg hx]

theorem splitOnChar_mem (sep : Char) :
    ∀ (t : Str), ∀ b ∈ splitOnChar sep t, ∀ c ∈ b, c ∈ t
  | [], b, hb, c, hc => by
    simp [splitOnChar] at hb
    subst hb
    exact absurd hc (List.not_mem_nil c)
  | d :: ds, b, hb, c, hc => by
    rw [splitOnChar_cons] at hb
    cases hsp : splitOnChar sep ds with
    | nil => exact absurd hsp (splitOnChar_ne_nil sep ds)
    | cons h t =>
      rw [hsp] at hb
      dsimp only at hb
      by_cases hd : d = sep
      · rw [if_pos hd] at hb
        rcases List.mem_cons.mp hb with rfl | hb2
        · exact absurd hc (List.not_mem_nil c)
        · have hbds : b ∈ splitOnChar sep ds := by
            rw [hsp]
            exact hb2
          exact List.mem_cons_of_mem d (splitOnChar_mem sep ds b hbds c hc)
      · rw [if_neg hd] at hb
        rcases List.mem_cons.mp hb with rfl | hb2
        · rcases List.mem_cons.mp hc with rfl | hc2
          · exact List.mem_cons_self _ _
          · have hhds : h ∈ splitOnChar sep ds := by
              rw [hsp]
              exact List.mem_cons_self h t
            exact List.mem_cons_of_mem d
              (splitOnChar_mem sep ds h hhds c hc2)
        · have hbds : b ∈ splitOnChar sep ds := by
            rw [hsp]
            exact List.mem_cons_of_mem h hb2
          exact List.mem_cons_of_mem d (splitOnChar_mem sep ds b hbds c hc)

/-! Auxiliary membership and strip facts. -/

theorem mem_of_mem_dropWhile {p : Char → Bool} :
    ∀ {l : Str} {c : Char}, c ∈ l.dropWhile p → c ∈ l
  | [], _, h => h
  | x :: xs, c, h => by
    rw [List.dropWhile_cons] at h
    by_cases hp : p x = true
    · rw [if_pos hp] at h
      exact List.mem_cons_of_mem x (mem_of_mem_dropWhile h)
    · rw [if_neg hp] at h
      exact h

theorem pyStrip_mem {s : Str} {c : Char} (hc : c ∈ pyStrip s) : c ∈ s := by
  unfold pyStrip at hc
  rw [List.mem_reverse] at hc
  have h2 := mem_of_mem_dropWhile hc
  rw [List.mem_reverse] at h2
  exact mem_of_mem_dropWhile h2

theorem dropWhile_of_headNotWs {u : Str} (h : headNotWs u) :
    u.dropWhile isPySpace = u := by
  cases u with
  | nil => rfl
  | cons c cs =>
    have hc : isPySpace c = false := h
    rw [List.dropWhile_cons, if_neg (by simp [hc])]

theorem pyStrip_idem (s : Str) : pyStrip (pyStrip s) = pyStrip s := by
  have h1 : (pyStrip s).dropWhile isPySpace = pyStrip s :=
    dropWhile_of_headNotWs (headNotWs_pyStrip s)
  have h2 : (pyStrip s).reverse =
      ((s.dropWhile isPySpace).reverse).dropWhile isPySpace := by
    unfold pyStrip
    rw [List.reverse_reverse]
  show ((((pyStrip s).dropWhile isPySpace).reverse).dropWhile
    isPySpace).reverse = pyStrip s
  rw [h1, h2, dropWhile_of_headNotWs (headNotWs_dropWhile _)]
  rw [← h2, List.reverse_reverse]

theorem chunky_mem_ne_nil : ∀ {l : List Str}, Chunky l → ∀ c ∈ l, c ≠ []
  | _, Chunky.nil, c, hc => absurd hc (List.not_mem_nil c)
  | _, Chunky.word hne _ h, c, hc => by
    rcases List.mem_cons.mp hc with rfl | hc2
    · exact hne
    · exact chunky_mem_ne_nil h c hc2
  | _, Chunky.ws hne _ _ h, c, hc => by
    rcases List.mem_cons.mp hc with rfl | hc2
    · exact hne
    · exact chunky_mem_ne_nil h c hc2

/-! The word decomposition distributes over the newline blocks: newlines are
whitespace, so the words of the text are the words of its blocks in order. -/

theorem pyWordsAux_split :
    ∀ (t acc : Str) {h : Str} {tl : List Str},
      splitOnChar '\n' t = h :: tl →
      pyWordsAux h acc ++ (tl.map pyWords).flatten = pyWordsAux t acc
  | [], acc, h, tl, hsp => by
    have h1 : ([] : Str) :: [] = h :: tl := hsp
    injection h1 with h2 h3
    rw [← h2, ← h3]
    show pyWordsAux [] acc ++ [] = pyWordsAux [] acc
    exact List.append_nil _
  | c :: cs, acc, h, tl, hsp => by
    rw [splitOnChar_cons] at hsp
    cases hsp2 : splitOnChar '\n' cs with
    | nil => exact absurd hsp2 (splitOnChar_ne_nil _ cs)
    | cons h2 tl2 =>
      rw [hsp2] at hsp
      dsimp only at hsp
      by_cases hc : c = '\n'
      · rw [if_pos hc] at hsp
        injection hsp with hh htl
        subst hc
        rw [← hh, ← htl]
        have hlhs : pyWordsAux ([] : Str) acc ++
            ((h2 :: tl2).map pyWords).flatten =
            emitAcc acc ++ (pyWordsAux h2 [] ++ (tl2.map pyWords).flatten) := by
          rw [List.map_cons, List.flatten_cons]
          rfl
        rw [hlhs, pyWordsAux_cons_ws (by decide) cs acc,
          ← pyWordsAux_split cs [] hsp2]
      · rw [if_neg hc] at hsp
        injection hsp with hh htl
        rw [← hh, ← htl]
        by_cases hcw : isPySpace c = true
        · rw [pyWordsAux_cons_ws hcw h2 acc, pyWordsAux_cons_ws hcw cs acc,
            ← pyWordsAux_split cs [] hsp2, List.append_assoc]
        · have hcf : isPySpace c = false := by simpa using hcw
          rw [pyWordsAux_cons_word hcf h2 acc, pyWordsAux_cons_word hcf cs acc]
          exact pyWordsAux_split cs (c :: acc) hsp2

theorem pyWords_blocks (t : Str) :
    ((splitOnChar '\n' t).map pyWords).flatten = pyWords t := by
  cases hsp : splitOnChar '\n' t with
  | nil => exact absurd hsp (splitOnChar_ne_nil _ t)
  | cons h tl =>
    rw [List.map_cons, List.flatten_cons]
    show pyWordsAux h [] ++ (tl.map pyWords).flatten = pyWordsAux t []
    exact pyWordsAux_split t [] hsp

/-! Facts about `wrap_block` and `wrap_text` assembled from the wrap-loop
and scanner theorems. -/

theorem scanChunks_flatten (s : Str) : (scanChunks s).flatten = s :=
  scanChunksF_flatten (s.length + 1) [] s (by omega)

theorem scanChunks_wsFree {s : Str} (h : wsFree s) :
    ∀ c ∈ scanChunks s, wsFree c := by
  intro c hc x hx
  have hx2 : x ∈ (scanChunks s).flatten := List.mem_flatten.mpr ⟨c, hc, hx⟩
  rw [scanChunks_flatten] at hx2
  exact h x hx2

theorem wrap_block_eq (cpl : Nat) (block : Str) :
    wrap_block cpl block =
      if (wrapPy cpl (pyStrip block)).isEmpty then [[]]
      else wrapPy cpl (pyStrip block) := rfl

theorem wrapPy_eq (cpl : Nat) (s : Str) :
    wrapPy cpl s =
      wrapChunksGo cpl (sumLen (scanChunks (munge s)) +
        (scanChunks (munge s)).length + 1) true (scanChunks (munge s)) := rfl

theorem wrap_block_le (cpl : Nat) (hcpl : 1 ≤ cpl) (block : Str) :
    ∀ l ∈ wrap_block cpl block, l.length ≤ cpl := by
  intro l hl
  rw [wrap_block_eq] at hl
  by_cases he : (wrapPy cpl (pyStrip block)).isEmpty = true
  · rw [if_pos he] at hl
    have hle : l = [] := by simpa using hl
    rw [hle]
    simp
  · rw [if_neg he, wrapPy_eq] at hl
    exact wrapChunksGo_width cpl hcpl _ true _ l hl

theorem wrap_text_le (text : Str) (cpl : Nat) (hcpl : 1 ≤ cpl) :
    ∀ l ∈ wrap_text text cpl, l.length ≤ cpl := by
  intro l hl
  unfold wrap_text at hl
  obtain ⟨b, hb, hlb⟩ := List.mem_flatMap.mp hl
  exact wrap_block_le cpl hcpl b l hlb

theorem wrap_block_headNotWs (cpl : Nat) (hcpl : 1 ≤ cpl) (block : Str) :
    ∀ l ∈ wrap_block cpl block, headNotWs l := by
  intro l hl
  rw [wrap_block_eq] at hl
  by_cases he : (wrapPy cpl (pyStrip block)).isEmpty = true
  · rw [if_pos he] at hl
    have hle : l = [] := by simpa using hl
    rw [hle]
    trivial
  · rw [if_neg he, wrapPy_eq] at hl
    have hchunky := (scanChunksF_chunky ((munge (pyStrip block)).length + 1)
      [] (munge (pyStrip block))).1
    have hhead := (scanChunksF_chunky ((munge (pyStrip block)).length + 1)
      [] (munge (pyStrip block))).2
      (headNotWs_munge (headNotWs_pyStrip block))
    exact wrapChunksGo_lines cpl hcpl _ true _ hchunky (fun _ => hhead) l hl

theorem wrap_text_headNotWs (text : Str) (cpl : Nat) (hcpl : 1 ≤ cpl) :
    ∀ l ∈ wrap_text text cpl, headNotWs l := by
  intro l hl
  unfold wrap_text at hl
  obtain ⟨b, hb, hlb⟩ := List.mem_flatMap.mp hl
  exact wrap_block_headNotWs cpl hcpl b l hlb

theorem wrap_block_allWs {block : Str} (h : allWs block) (cpl : Nat) :
    wrap_block cpl block = [[]] := by
  rw [wrap_block_eq, pyStrip_eq_nil h]
  have h0 : wrapPy cpl ([] : Str) = [] := rfl
  rw [h0]
  rfl

theorem wrap_block_strip (cpl : Nat) (block : Str) :
    wrap_block cpl block = wrap_block cpl (pyStrip block) := by
  rw [wrap_block_eq cpl block, wrap_block_eq cpl (pyStrip block),
    pyStrip_idem]

/-! `wrapPy` on a single whitespace-free string. -/

theorem wrapPy_flatten {s : Str} (hwf : wsFree s) :
    (wrapPy 60 s).flatten = s := by
  rw [wrapPy_eq, munge_eq_self hwf]
  have h1 := wrapChunksGo_flatten 60 (by omega)
    (sumLen (scanChunks s) + (scanChunks s).length + 1) true (scanChunks s)
    (by unfold chunkMu; omega) (scanChunks_wsFree hwf)
  rw [h1, scanChunks_flatten]

theorem wrapPy_single {s : Str} (hwf : wsFree s) (hne : s ≠ [])
    (hlen : s.length ≤ 60) : wrapPy 60 s = [s] := by
  rw [wrapPy_eq, munge_eq_self hwf]
  have hfl : (scanChunks s).flatten = s := scanChunks_flatten s
  cases hsc : scanChunks s with
  | nil =>
    rw [hsc] at hfl
    simp at hfl
    exact absurd hfl hne
  | cons c cs =>
    rw [hsc] at hfl
    have hwfall : ∀ x ∈ c :: cs, wsFree x ∧ x ≠ [] := by
      intro x hx
      refine ⟨scanChunks_wsFree hwf x (by rw [hsc]; exact hx), ?_⟩
      have hchunky : Chunky (c :: cs) := by
        rw [← hsc]
        exact (scanChunksF_chunky (s.length + 1) [] s).1
      exact chunky_mem_ne_nil hchunky x hx
    have hsum : sumLen (c :: cs) ≤ 60 := by
      have h2 := length_flatten_eq (c :: cs)
      rw [hfl] at h2
      omega
    rw [wrapChunksGo_single 60 (sumLen (c :: cs) + (c :: cs).length)
      c cs hwfall hsum, hfl]

theorem no_newline_of_wsFree {s : Str} (hwf : wsFree s) : '\n' ∉ s := by
  intro h
  have := hwf '\n' h
  exact absurd this (by decide)

theorem wrap_text_single {s : Str} (hwf : wsFree s) (hne : s ≠ [])
    (hlen : s.length ≤ 60) : wrap_text s 60 = [s] := by
  unfold wrap_text
  rw [splitOnChar_no_sep '\n' (no_newline_of_wsFree hwf),
    List.flatMap_cons, List.flatMap_nil, List.append_nil]
  rw [wrap_block_eq, pyStrip_eq_self hwf, wrapPy_single hwf hne hlen]
  rfl

theorem wrapPy_two_lines {s : Str} (hwf : wsFree s) (hlen : s.length = 61) :
    2 ≤ (wrapPy 60 s).length := by
  have hfl : (wrapPy 60 s).flatten = s := wrapPy_flatten hwf
  have hwid : ∀ l ∈ wrapPy 60 s, l.length ≤ 60 := by
    intro l hl
    rw [wrapPy_eq] at hl
    exact wrapChunksGo_width 60 (by omega) _ true _ l hl
  cases hr : wrapChunksGo 60 (sumLen (scanChunks (munge s)) +
      (scanChunks (munge s)).length + 1) true (scanChunks (munge s)) with
  | nil =>
    rw [wrapPy_eq, hr] at hfl
    simp at hfl
    rw [hfl] at hlen
    simp at hlen
  | cons l1 rest =>
    cases rest with
    | nil =>
      rw [wrapPy_eq, hr] at hfl
      have hl1 : l1 = s := by simpa using hfl
      have hle := hwid l1 (by rw [wrapPy_eq, hr]; exact List.mem_cons_self l1 [])
      rw [hl1, hlen] at hle
      omega
    | cons l2 rest2 =>
      rw [wrapPy_eq, hr]
      simp

theorem wrap_text_61 {s : Str} (hwf : wsFree s) (hlen : s.length = 61) :
    2 ≤ (wrap_text s 60).length ∧ ∀ l ∈ wrap_text s 60, l.length ≤ 60 := by
  have h2 := wrapPy_two_lines hwf hlen
  have hne2 : wrapPy 60 s ≠ [] := by
    intro h
    rw [h] at h2
    simp at h2
  have hrw : wrap_text s 60 = wrapPy 60 s := by
    unfold wrap_text
    rw [splitOnChar_no_sep '\n' (no_newline_of_wsFree hwf),
      List.flatMap_cons, List.flatMap_nil, List.append_nil]
    rw [wrap_block_eq, pyStrip_eq_self hwf,
      if_neg (by simpa [List.isEmpty_iff] using hne2)]
  rw [hrw]
  refine ⟨h2, ?_⟩
  intro l hl
  rw [wrapPy_eq] at hl
  exact wrapChunksGo_width 60 (by omega) _ true _ l hl

theorem wrap_text_blank {a : Str} (b : Str) (ha : '\n' ∉ a) :
    wrap_text (a ++ '\n' :: '\n' :: b) 60 =
      wrap_block 60 a ++ [] :: wrap_text b 60 := by
  unfold wrap_text
  rw [splitOnChar_append '\n' ('\n' :: b) ha]
  have h2 : splitOnChar '\n' ('\n' :: b) = [] :: splitOnChar '\n' b :=
    splitOnChar_append '\n' b (List.not_mem_nil '\n')
  rw [h2, List.flatMap_cons, List.flatMap_cons]
  have h3 : wrap_block 60 ([] : Str) = [[]] := rfl
  rw [h3]
  rfl

/-! Word preservation through `wrap_block` and `wrap_text`. -/

theorem wrap_block_words (block : Str) (hh : '-' ∉ block)
    (hw : ∀ w ∈ pyWords block, w.length ≤ 60) :
    ((wrap_block 60 block).map pyWords).flatten = pyWords block := by
  have hh2 : '-' ∉ pyStrip block := fun h => hh (pyStrip_mem h)
  have hh3 : '-' ∉ munge (pyStrip block) := munge_no_hyphen hh2
  have hhead : headNotWs (munge (pyStrip block)) :=
    headNotWs_munge (headNotWs_pyStrip block)
  have halt : Alt false (scanChunks (munge (pyStrip block))) :=
    (scanChunksF_alt ((munge (pyStrip block)).length + 1) []
      (munge (pyStrip block)) hh3).1 hhead
  have hfl : (scanChunks (munge (pyStrip block))).flatten =
      munge (pyStrip block) := scanChunks_flatten _
  have hwc : wordChunks (scanChunks (munge (pyStrip block))) =
      pyWords block := by
    have h1 := pyWords_flatten_false halt
    rw [hfl] at h1
    rw [← h1, pyWords_munge, pyWords_pyStrip]
  have hbound : ∀ c ∈ scanChunks (munge (pyStrip block)), wsFree c →
      c.length ≤ 60 := by
    intro c hc hcwf
    have hcne : c ≠ [] := chunky_mem_ne_nil (chunky_of_alt halt) c hc
    have hmemw : c ∈ wordChunks (scanChunks (munge (pyStrip block))) :=
      List.mem_filter.mpr ⟨hc, by rw [isWsChunk_eq_false hcne hcwf]; rfl⟩
    rw [hwc] at hmemw
    exact hw c hmemw
  have hwords := wrapChunksGo_words 60 (by omega)
    (sumLen (scanChunks (munge (pyStrip block))) +
      (scanChunks (munge (pyStrip block))).length + 1) true false
    (scanChunks (munge (pyStrip block)))
    (by unfold chunkMu; omega) halt (fun _ => rfl) hbound
  rw [wrap_block_eq]
  by_cases he : (wrapPy 60 (pyStrip block)).isEmpty = true
  · rw [if_pos he]
    have hres : wrapPy 60 (pyStrip block) = [] := List.isEmpty_iff.mp he
    rw [wrapPy_eq] at hres
    rw [hres] at hwords
    simp at hwords
    rw [hwc] at hwords
    show (([[]] : List Str).map pyWords).flatten = pyWords block
    rw [hwords]
    decide
  · rw [if_neg he, wrapPy_eq]
    rw [hwords, hwc]

theorem flatMap_map_flatten (f g : Str → List Str) :
    ∀ l : List Str, ((l.flatMap f).map g).flatten =
      (l.map (fun b => ((f b).map g).flatten)).flatten
  | [] => rfl
  | b :: bs => by
    rw [List.flatMap_cons, List.map_append, List.flatten_append,
      List.map_cons, List.flatten_cons, flatMap_map_flatten f g bs]

/-- Claim C2, amended part: on hyphen-free text whose words all fit in 60
columns, the wrap splits on newlines, emits lines of at most 60 characters
and never breaks a word: the words of the output lines, in order, are
exactly the words of the input. -/
theorem C2_wordwrap (text : Str) (hh : '-' ∉ text)
    (hwords : ∀ w ∈ pyWords text, w.length ≤ 60) :
    (∀ l ∈ wrap_text text 60, l.length ≤ 60) ∧
    ((wrap_text text 60).map pyWords).flatten = pyWords text := by
  refine ⟨wrap_text_le text 60 (by omega), ?_⟩
  unfold wrap_text
  rw [flatMap_map_flatten (wrap_block 60) pyWords (splitOnChar '\n' text)]
  have hcong : (splitOnChar '\n' text).map
      (fun b => ((wrap_block 60 b).map pyWords).flatten) =
      (splitOnChar '\n' text).map pyWords := by
    apply List.map_congr_left
    intro b hb
    apply wrap_block_words
    · intro hmem
      exact hh (splitOnChar_mem '\n' text b hb '-' hmem)
    · intro w hwmem
      apply hwords
      rw [← pyWords_blocks text]
      exact List.mem_flatten.mpr ⟨pyWords b, List.mem_map.mpr ⟨b, hb, rfl⟩,
        hwmem⟩
  rw [hcong, pyWords_blocks]

/-- Claim C2, counterexample to the unrestricted claim: a single
whitespace-free word of 61 characters is broken mid-word into a 60-character
line and a 1-character line (`break_long_words` is left at its default). -/
theorem C2_counterexample :
    wrap_text (List.replicate 61 'x') 60 =
      [List.replicate 60 'x', ['x']] := by decide

theorem C2_witness :
    ((Char.ofNat 45 ∉ ("hello world").data) ∧
     ∀ w ∈ pyWords ("hello world").data, w.length ≤ 60) ∧
    ((∀ l ∈ wrap_text ("hello world").data 60, l.length ≤ 60) ∧
     ((wrap_text ("hello world").data 60).map pyWords).flatten =
       pyWords ("hello world").data) :=
  ⟨⟨by decide, by decide⟩,
   C2_wordwrap ("hello world").data (by decide) (by decide)⟩

/-- Claim C5: a whitespace-free input of 60 characters is returned as the
single unsplit line; a whitespace-free input of 61 characters yields at
least two lines, each of length at most 60; and a blank line in the input
(two consecutive newlines) yields an empty output line at the corresponding
position of the output list. -/
theorem C5_wrap_boundaries (s t a b : Str) (hs : wsFree s)
    (hslen : s.length = 60) (ht : wsFree t) (htlen : t.length = 61)
    (ha : '\n' ∉ a) :
    wrap_text s 60 = [s] ∧
    (2 ≤ (wrap_text t 60).length ∧ ∀ l ∈ wrap_text t 60, l.length ≤ 60) ∧
    wrap_text (a ++ '\n' :: '\n' :: b) 60 =
      wrap_block 60 a ++ [] :: wrap_text b 60 := by
  refine ⟨?_, wrap_text_61 ht htlen, wrap_text_blank b ha⟩
  refine wrap_text_single hs ?_ (by omega)
  intro h
  rw [h] at hslen
  simp at hslen

theorem C5_witness :
    (wsFree (List.replicate 60 'x') ∧ (List.replicate 60 'x').length = 60 ∧
     wsFree (List.replicate 61 'y') ∧ (List.replicate 61 'y').length = 61 ∧
     Char.ofNat 10 ∉ ("ab").data) ∧
    (wrap_text (List.replicate 60 'x') 60 = [List.replicate 60 'x'] ∧
     (2 ≤ (wrap_text (List.replicate 61 'y') 60).length ∧
      ∀ l ∈ wrap_text (List.replicate 61 'y') 60, l.length ≤ 60) ∧
     wrap_text (("ab").data ++ '\n' :: '\n' :: ("cd").data) 60 =
       wrap_block 60 ("ab").data ++ [] :: wrap_text ("cd").data 60) :=
  ⟨⟨by decide, by decide, by decide, by decide, by decide⟩,
   C5_wrap_boundaries (List.replicate 60 'x') (List.replicate 61 'y')
     ("ab").data ("cd").data (by decide) (by decide) (by decide) (by decide)
     (by decide)⟩

/-- Claim C10, amended part: every newline-separated segment is stripped
before wrapping (wrapping a segment and wrapping its stripped form agree),
no output line ever starts with whitespace, and a whitespace-only segment
produces exactly one empty output line, like a genuinely empty segment. -/
theorem C10_wrap_whitespace (text block : Str) (hws : allWs block) :
    (∀ l ∈ wrap_text text 60, headNotWs l) ∧
    (∀ b2 : Str, wrap_block 60 b2 = wrap_block 60 (pyStrip b2)) ∧
    wrap_block 60 block = [[]] :=
  ⟨wrap_text_headNotWs text 60 (by omega),
   fun b2 => wrap_block_strip 60 b2,
   wrap_block_allWs hws 60⟩

set_option maxRecDepth 16384 in
/-- Claim C10, counterexample to the unrestricted claim: trailing whitespace
can survive inside an output line.  When a 58-character word and a
two-space run exactly fill the 60-column line and the next word is longer
than 60 characters, `_handle_long_word` contributes an empty slice, the
single trailing-chunk drop removes only that slice, and the emitted first
line ends with the two spaces. -/
theorem C10_counterexample :
    wrap_text (List.replicate 58 'a' ++ [' ', ' '] ++ List.replicate 61 'b')
      60 =
      [List.replicate 58 'a' ++ [' ', ' '], List.replicate 60 'b', ['b']] :=
  by decide

theorem C10_witness :
    allWs ("  ").data ∧
    ((∀ l ∈ wrap_text ("a b").data 60, headNotWs l) ∧
     (∀ b2 : Str, wrap_block 60 b2 = wrap_block 60 (pyStrip b2)) ∧
     wrap_block 60 ("  ").data = [[]]) :=
  ⟨by decide, C10_wrap_whitespace ("a b").data ("  ").data (by decide)⟩

end Matryoshka
